import Mathlib

/-!
# bucket: rotation state machine and copy loop

A shallow embedding of `src/bucket.c` (functions `_backup_bucket` and `main`).

* The files the program can touch are `dest_filename`, `dest_filename.1`,
  `dest_filename.2`, ...  They are distinct paths, so the disk is a map from
  the slot number (`0` for the bare name, `i` for the suffix `.i`) to the node
  found there.
* The source descriptor is the list of bytes not read yet.
* The operating system is a `World`: for every system call, numbered by a
  clock, it says whether the call succeeds and how many bytes a read delivers.
* `size_t` is 64 bits wide: arithmetic on it is taken modulo `SIZE_MOD`.
  `off_t` values (`st_size`, the result of `lseek`) are non-negative and below
  `2 ^ 63`, so their conversion to `size_t` is the identity.
-/

namespace Bucket

/-! ## Data model -/

abbrev Byte := Nat

/-- What `stat` can find at a path: a regular file with its content, or a node
for which `S_ISREG` is false (directory, FIFO, device). -/
inductive Node where
  | regular (content : List Byte)
  | other
  deriving DecidableEq, Repr

/-- Slot `0` is `dest_filename`; slot `i` is `dest_filename.i`. -/
abbrev Disk := Nat → Option Node

/-- The fields of `struct arguments` the engine reads (`src_fd` is the input
list of the run, `dest_filename` is slot `0` of the disk). -/
structure arguments where
  new_bucket : Bool
  backup_buckets : Nat
  overflow_bytesize : Nat
  stdout : Bool

/-- Result of `read`: `-1`, or the number of bytes the source is ready to
deliver (a request is served with at least one byte while input is left). -/
inductive ReadOutcome where
  | error
  | deliver (want : Nat)
  deriving DecidableEq, Repr

/-- Result of `write`: everything written, a short count, or `-1`. -/
inductive WriteOutcome where
  | full
  | short (k : Nat)
  | error
  deriving DecidableEq, Repr

/-- The behaviour of the operating system, per system call (numbered by the
clock of the run).  `echo` is the outcome of the write to standard output that
goes with the read made at that clock value. -/
structure World where
  ok : Nat → Bool
  read : Nat → ReadOutcome
  write : Nat → WriteOutcome
  echo : Nat → WriteOutcome

/-- System calls and counter updates, in the order the program performs them.
A `read` records the counter and the request it was made with, the number of
input bytes still `pending` in the source and the value returned (`none` for
`-1`); `write` and `close` record the node at `dest_filename` afterwards. -/
inductive Event where
  | malloc (ok : Bool)
  | rename (src dest : Nat) (ok : Bool)
  | open_existing (ok : Bool)
  | lseek_end (result : Option Nat)
  | open_create (ok : Bool)
  | read (bucket_size max_read_size pending : Nat) (result : Option Nat)
  | echo (outcome : WriteOutcome)
  | write (read_size : Nat) (outcome : WriteOutcome) (bucket : Option Node)
  | advance (bucket_size : Nat) (overflow : Bool)
  | close (overflow : Bool) (bucket_size : Nat) (bucket : Option Node)
  deriving DecidableEq, Repr

/-- Program variables of `main` (`busy`, `ofd`, `bucket_size`, `overflow`)
together with the outside world (`disk`, `input`), the system call clock and
the events so far.  `ofd` is true when `ofd > 0`, that is when a bucket is
open. -/
structure Run where
  disk : Disk
  input : List Byte
  clock : Nat
  busy : Bool
  ofd : Bool
  bucket_size : Nat
  overflow : Bool
  trace : List Event

/-! ## `size_t` arithmetic -/

def SIZE_MOD : Nat := 2 ^ 64

/-- Unsigned subtraction on `size_t`. -/
def size_sub (a b : Nat) : Nat := (a % SIZE_MOD + SIZE_MOD - b % SIZE_MOD) % SIZE_MOD

/-- Unsigned addition on `size_t`. -/
def size_add (a b : Nat) : Nat := (a + b) % SIZE_MOD

/-! ## File system primitives -/

def emptyDisk : Disk := fun _ => none

/-- Result of `0 == stat (path, &s) && S_ISREG (s.st_mode)`. -/
def is_regular : Option Node → Bool
  | some (Node.regular _) => true
  | _ => false

/-- Field `st_size` of a regular file. -/
def st_size : Option Node → Nat
  | some (Node.regular content) => content.length
  | _ => 0

/-- A successful `rename (src, dest)` between names of different files: `dest`
is replaced, `src` is gone.  (Names that are links to one file are the subject
of `Posix.sys_rename` below.) -/
def sys_rename (d : Disk) (src dest : Nat) : Disk :=
  fun k => if k = dest then d src else if k = src then none else d k

/-- A successful `open (dest_filename, O_WRONLY | O_CREAT | O_TRUNC, ...)`:
a missing file is created empty, a regular file is truncated, another kind of
node is opened as it is. -/
def sys_open_trunc (d : Disk) : Disk :=
  fun k => if k = 0 then
      (match d 0 with
       | some Node.other => some Node.other
       | _ => some (Node.regular []))
    else d k

/-- Bytes written through `ofd` land at the end of the file at slot `0` (the
descriptor was positioned at the end, or the file was truncated); a node that
is not a regular file swallows them. -/
def sys_write (d : Disk) (data : List Byte) : Disk :=
  fun k => if k = 0 then
      (match d 0 with
       | some (Node.regular content) => some (Node.regular (content ++ data))
       | n => n)
    else d k

/-! ## `_backup_bucket` (bucket.c lines 217-246) -/

/-- The `for` loop of `_backup_bucket`, entered with `retval = TRUE`, at
`dest_index`.  Returns the state and `retval`. -/
def backup_loop (w : World) : Nat → Run → Run × Bool
  | 0, s => (s, true)
  | i + 1, s =>
    let dest_index := i + 1
    let src := if dest_index > 1 then dest_index - 1 else 0
    let dest := dest_index
    if is_regular (s.disk src) then
      if w.ok s.clock then
        backup_loop w i { s with disk := sys_rename s.disk src dest,
                                 clock := s.clock + 1,
                                 trace := s.trace ++ [Event.rename src dest true] }
      else
        ({ s with clock := s.clock + 1,
                  trace := s.trace ++ [Event.rename src dest false] }, false)
    else
      backup_loop w i s

def _backup_bucket (args : arguments) (w : World) (s : Run) : Run × Bool :=
  backup_loop w args.backup_buckets s

/-! ## `main` (bucket.c lines 248-367) -/

/-- Lines 254-261: size of the transfer buffer. -/
def buffer_size (args : arguments) : Nat :=
  if args.overflow_bytesize > 0 then
    if 1024 * 32 > args.overflow_bytesize then args.overflow_bytesize else 1024 * 32
  else 1024 * 32

/-- Lines 278-282: the condition under which the existing file is reused. -/
def reuse_condition (args : arguments) (d : Disk) : Bool :=
  !args.new_bucket
    && is_regular (d 0)
    && (args.overflow_bytesize == 0 || decide (st_size (d 0) < args.overflow_bytesize))

/-- Lines 274-311: choose the bucket of this cycle. -/
def select_bucket (args : arguments) (w : World) (s : Run) : Run :=
  if reuse_condition args s.disk then
    -- new_bucket = FALSE; ofd = open (dest_filename, O_WRONLY)
    if w.ok s.clock then
      if w.ok (s.clock + 1) then
        { s with ofd := true,
                 bucket_size := st_size (s.disk 0),
                 clock := s.clock + 2,
                 trace := s.trace ++ [Event.open_existing true,
                                      Event.lseek_end (some (st_size (s.disk 0)))] }
      else
        { s with ofd := true,
                 bucket_size := SIZE_MOD - 1,
                 busy := false,
                 clock := s.clock + 2,
                 trace := s.trace ++ [Event.open_existing true, Event.lseek_end none] }
    else
      { s with ofd := false,
               busy := false,
               clock := s.clock + 1,
               trace := s.trace ++ [Event.open_existing false] }
  else
    -- busy && new_bucket
    let r := _backup_bucket args w s
    if r.2 then
      if w.ok r.1.clock then
        { r.1 with disk := sys_open_trunc r.1.disk,
                   ofd := true,
                   clock := r.1.clock + 1,
                   trace := r.1.trace ++ [Event.open_create true] }
      else
        { r.1 with ofd := false,
                   busy := false,
                   clock := r.1.clock + 1,
                   trace := r.1.trace ++ [Event.open_create false] }
    else
      { r.1 with busy := false }

/-- Lines 317-323: the size passed to `read`. -/
def max_read_size (args : arguments) (bucket_size : Nat) : Nat :=
  if args.overflow_bytesize = 0 then buffer_size args
  else
    let remain := size_sub args.overflow_bytesize bucket_size
    if remain < buffer_size args then remain else buffer_size args

/-- Lines 314-350: one iteration of the inner `while (busy && !overflow)`.
The `read` returns the next `min (max want 1) request` bytes of the input, or
what is left of it: any split of the input into non-empty chunks is the
behaviour of some world.  Standard output is taken to be outside the disk and
its write to return: the outcome is recorded and otherwise ignored
(`Posix.copy_step` below has descriptor 1 open on a file of the chain or on a
pipe without a reader).  A short bucket write transfers fewer than `read_size`
bytes. -/
def copy_step (args : arguments) (w : World) (s : Run) : Run :=
  let request := max_read_size args s.bucket_size
  match w.read s.clock with
  | ReadOutcome.error =>
    { s with busy := false,
             clock := s.clock + 1,
             trace := s.trace ++ [Event.read s.bucket_size request s.input.length none] }
  | ReadOutcome.deliver want =>
    let data := s.input.take (min (max want 1) request)
    let read_size := data.length
    let s1 : Run := { s with input := s.input.drop read_size,
                             clock := s.clock + 1,
                             trace := s.trace ++ [Event.read s.bucket_size request s.input.length
                                                 (some read_size)] }
    if read_size = 0 then
      { s1 with busy := false }
    else
      let s2 : Run := if args.stdout then
          { s1 with trace := s1.trace ++ [Event.echo (w.echo s.clock)] }
        else s1
      match w.write s2.clock with
      | WriteOutcome.full =>
        let disk := sys_write s2.disk data
        let bucket_size := size_add s2.bucket_size read_size
        let overflow := decide (bucket_size ≥ args.overflow_bytesize)
        { s2 with disk := disk,
                  bucket_size := bucket_size,
                  overflow := overflow,
                  clock := s2.clock + 1,
                  trace := s2.trace ++ [Event.write read_size WriteOutcome.full (disk 0),
                                        Event.advance bucket_size overflow] }
      | WriteOutcome.short k =>
        let disk := sys_write s2.disk (data.take (min k (read_size - 1)))
        { s2 with disk := disk,
                  busy := false,
                  clock := s2.clock + 1,
                  trace := s2.trace ++ [Event.write read_size (WriteOutcome.short k) (disk 0)] }
      | WriteOutcome.error =>
        { s2 with busy := false,
                  clock := s2.clock + 1,
                  trace := s2.trace ++ [Event.write read_size WriteOutcome.error (s2.disk 0)] }

/-- Lines 313-351: the inner loop.  Every iteration that does not end the loop
consumes input, so `fuel` larger than the input length is never exhausted. -/
def copy_loop (args : arguments) (w : World) : Nat → Run → Run
  | 0, s => s
  | fuel + 1, s =>
    if s.busy && !s.overflow then copy_loop args w fuel (copy_step args w s) else s

/-- Lines 353-356: close the bucket. -/
def close_bucket (s : Run) : Run :=
  if s.ofd then
    { s with ofd := false,
             trace := s.trace ++ [Event.close s.overflow s.bucket_size (s.disk 0)] }
  else s

/-- Lines 271-356: the body of the outer `while (busy)`. -/
def cycle (args : arguments) (w : World) (s : Run) : Run :=
  let s0 : Run := { s with bucket_size := 0, overflow := false }
  let s1 := select_bucket args w s0
  let s2 := copy_loop args w (s1.input.length + 1) s1
  close_bucket s2

/-- Lines 270-357: the outer loop. -/
def main_loop (args : arguments) (w : World) : Nat → Run → Run
  | 0, s => s
  | fuel + 1, s => if s.busy then main_loop args w fuel (cycle args w s) else s

/-- Lines 253-268: the state in which the outer loop is entered. -/
def initial (w : World) (disk : Disk) (input : List Byte) : Run :=
  { disk := disk, input := input, clock := 1, busy := w.ok 0, ofd := false,
    bucket_size := 0, overflow := false, trace := [Event.malloc (w.ok 0)] }

/-- The program after option parsing: `main` from line 254 on. -/
def main (args : arguments) (w : World) (disk : Disk) (input : List Byte) : Run :=
  main_loop args w (input.length + 1) (initial w disk input)

/-- A world without I/O failure that serves reads as `want` dictates. -/
def calm (want : Nat → Nat) : World :=
  { ok := fun _ => true,
    read := fun t => ReadOutcome.deliver (want t),
    write := fun _ => WriteOutcome.full,
    echo := fun _ => WriteOutcome.full }

/-- No system call of the run fails (standard output aside). -/
def World.reliable (w : World) : Prop :=
  ∀ t, w.ok t = true ∧ w.write t = WriteOutcome.full ∧ w.read t ≠ ReadOutcome.error


/-! ## Specification-side definitions -/

/-- The disk after a rotation of depth `n` in which every rename succeeded. -/
def rotated (n : Nat) (d : Disk) : Disk := fun k =>
  if 1 ≤ k ∧ k ≤ n then
    if is_regular (d (k - 1)) then d (k - 1)
    else if k < n ∧ is_regular (d k) then none else d k
  else if k = 0 ∧ 1 ≤ n ∧ is_regular (d 0) then none else d k


/-- The disk the rotation scheme is expected to hold when `k` buckets have
overflowed: the active bucket at slot `0`, and at slot `i` (for `i` up to
`min k N`) the `T` input bytes starting at `(k - i) * T`. -/
def layout (input : List Byte) (T N k : Nat) (active : List Byte) : Disk := fun i =>
  if i = 0 then some (Node.regular active)
  else if i ≤ min k N then some (Node.regular ((input.drop ((k - i) * T)).take T))
  else none

/-- What a run promises about each event, with `T = overflow_bytesize`: a read
is requested with the counter below `T` (so `T - bucket_size` does not wrap)
and asks for between one byte and a full buffer, a read that returns zero
found no input pending, the counter never exceeds `T`, overflow is signalled
exactly at `T`, and a regular bucket file never exceeds `T` bytes. -/
def Good (args : arguments) : Event → Prop
  | Event.lseek_end (some size) => 0 < args.overflow_bytesize → size < args.overflow_bytesize
  | Event.read bucket_size request pending result =>
    request = max_read_size args bucket_size ∧
    1 ≤ request ∧ request ≤ buffer_size args ∧ (result = some 0 → pending = 0) ∧
    (0 < args.overflow_bytesize →
      bucket_size < args.overflow_bytesize ∧
      size_sub args.overflow_bytesize bucket_size = args.overflow_bytesize - bucket_size ∧
      request = min (args.overflow_bytesize - bucket_size) (buffer_size args))
  | Event.write _ _ bucket =>
    0 < args.overflow_bytesize →
      ∀ c, bucket = some (Node.regular c) → c.length ≤ args.overflow_bytesize
  | Event.advance bucket_size overflow =>
    0 < args.overflow_bytesize →
      bucket_size ≤ args.overflow_bytesize ∧
      (overflow = true ↔ bucket_size = args.overflow_bytesize)
  | Event.close overflow bucket_size bucket =>
    0 < args.overflow_bytesize →
      (overflow = true → bucket_size = args.overflow_bytesize) ∧
      ∀ c, bucket = some (Node.regular c) →
        c.length ≤ args.overflow_bytesize ∧
        (overflow = true → c.length = args.overflow_bytesize)
  | _ => True

/-- Invariant of the counter between bucket selection and close. -/
def Within (args : arguments) (s : Run) : Prop :=
  (∀ e ∈ s.trace, Good args e) ∧
  (s.overflow = true → s.busy = true) ∧
  (0 < args.overflow_bytesize →
    (s.busy = true → s.overflow = false → s.bucket_size < args.overflow_bytesize) ∧
    (s.overflow = true → s.bucket_size = args.overflow_bytesize) ∧
    (s.busy = true → ∀ c, s.disk 0 = some (Node.regular c) → c.length = s.bucket_size) ∧
    (s.ofd = true → ∀ c, s.disk 0 = some (Node.regular c) →
      c.length ≤ args.overflow_bytesize))

/-- Invariant of the counter at the start of a cycle. -/
def Between (args : arguments) (s : Run) : Prop :=
  (∀ e ∈ s.trace, Good args e) ∧ s.ofd = false

/-- The events that end a run: a failed `malloc`, `rename`, `open` or `lseek`,
a `read` that returns `-1` or `0` (end of input), and a bucket `write` that
does not write everything. -/
def fatal : Event → Bool
  | Event.malloc ok => !ok
  | Event.rename _ _ ok => !ok
  | Event.open_existing ok => !ok
  | Event.lseek_end result => result.isNone
  | Event.open_create ok => !ok
  | Event.read _ _ _ result => result.isNone || result == some 0
  | Event.write _ outcome _ => outcome != WriteOutcome.full
  | Event.echo _ => false
  | Event.advance _ _ => false
  | Event.close _ _ _ => false

def is_close : Event → Bool
  | Event.close _ _ _ => true
  | _ => false

/-- No event of the list ends a run. -/
def clean (tr : List Event) : Prop := ∀ e ∈ tr, fatal e = false

/-- The list ends with the one event that ended the run. -/
def ended (tr : List Event) : Prop :=
  ∃ before e, tr = before ++ [e] ∧ fatal e = true ∧ clean before

/-- The list ends with the one event that ended the run and the close of the
bucket that was open. -/
def ended_closed (tr : List Event) : Prop :=
  ∃ before e c, tr = before ++ [e, c] ∧ fatal e = true ∧ is_close c = true ∧ clean before

/-- Invariant of the event list between bucket selection and close. -/
def Running (s : Run) : Prop :=
  (s.busy = true → clean s.trace) ∧ (s.busy = false → ended s.trace)

/-- Invariant of the event list at the start of a cycle and at the end of the
run. -/
def Settled (s : Run) : Prop :=
  (s.busy = true → clean s.trace) ∧ (s.busy = false → ended s.trace ∨ ended_closed s.trace)

/-! ## File identity and descriptors

The definitions above identify a file with its content and keep standard
output outside the disk.  The ones below embed the same lines of `bucket.c`
over a file system with inodes, where two names may be links to one file, a
descriptor is a position in a file, and descriptor 1 may be open on one of the
files of the chain or on a pipe without a reader. -/

namespace Posix

/-- An inode: a file that was there before the run, or one the run created
(numbered by the clock of the `open` that created it). -/
inductive Ino where
  | old (n : Nat)
  | made (clock : Nat)
  deriving DecidableEq, Repr

/-- A directory entry: a link to a regular file, or a node for which `S_ISREG`
is false. -/
inductive Entry where
  | file (ino : Ino)
  | other
  deriving DecidableEq, Repr

/-- The names `dest_filename` (slot `0`) and `dest_filename.i` (slot `i`), and
the content of every inode. -/
structure FS where
  dir : Nat → Option Entry
  data : Ino → List Byte

/-- What `ofd` is open on: a regular file, at an offset, or another node. -/
inductive Handle where
  | file (ino : Ino) (offset : Nat)
  | other
  deriving DecidableEq, Repr

/-- What descriptor 1 is open on: something outside this file system (terminal,
pipe, socket, a file that is none of these inodes), or the regular file
`Ino.old n` at an offset, with or without `O_APPEND`.  The source of the run
is a list of bytes of its own: descriptor 1 is never open on the source. -/
inductive Sink where
  | outside
  | file (n : Nat) (offset : Nat) (append : Bool)
  deriving DecidableEq, Repr

/-- The behaviour of the operating system, per system call.  `sigpipe` says
whether the write to standard output made with the read at that clock value
raises `SIGPIPE` (a pipe whose reader is gone): the program installs no
handler, so the signal ends the process inside the `write`. -/
structure Host where
  ok : Nat → Bool
  read : Nat → ReadOutcome
  write : Nat → WriteOutcome
  echo : Nat → WriteOutcome
  sigpipe : Nat → Bool

/-- Program variables of `main`, the file system, the source, what descriptor 1
is open on, and whether a signal has ended the process. -/
structure Run where
  fs : FS
  stdout : Sink
  input : List Byte
  clock : Nat
  busy : Bool
  killed : Bool
  ofd : Option Handle
  bucket_size : Nat
  overflow : Bool

/-- What `stat` and a reader see at every slot. -/
def FS.view (fs : FS) : Disk := fun k =>
  match fs.dir k with
  | some (Entry.file ino) => some (Node.regular (fs.data ino))
  | some Entry.other => some Node.other
  | none => none

/-- The content of a file after `bytes` are written at `offset` (a gap past
the end reads as zeros; writing nothing changes nothing). -/
def pwrite (content : List Byte) (offset : Nat) (bytes : List Byte) : List Byte :=
  if bytes.length = 0 then content
  else content.take offset ++ List.replicate (offset - content.length) 0 ++ bytes
    ++ content.drop (offset + bytes.length)

def FS.write_at (fs : FS) (ino : Ino) (offset : Nat) (bytes : List Byte) : FS :=
  { fs with data := fun i => if i = ino then pwrite (fs.data ino) offset bytes else fs.data i }

/-- The bytes a `write` of `data` transfers. -/
def transferred (outcome : WriteOutcome) (data : List Byte) : List Byte :=
  match outcome with
  | WriteOutcome.full => data
  | WriteOutcome.short k => data.take (min k (data.length - 1))
  | WriteOutcome.error => []

/-- A successful `rename (src, dest)`: when both names are links to the same
file it does nothing; otherwise `dest` is replaced and `src` is gone. -/
def sys_rename (fs : FS) (src dest : Nat) : FS :=
  match fs.dir src, fs.dir dest with
  | some (Entry.file a), some (Entry.file b) =>
    if a = b then fs
    else { fs with dir := fun k => if k = dest then fs.dir src else
                                   if k = src then none else fs.dir k }
  | _, _ => { fs with dir := fun k => if k = dest then fs.dir src else
                                      if k = src then none else fs.dir k }

/-- The two names are links to one and the same regular file. -/
def linked (fs : FS) (a b : Nat) : Prop :=
  ∃ ino, fs.dir a = some (Entry.file ino) ∧ fs.dir b = some (Entry.file ino)

/-- What a descriptor opened on `dest_filename` refers to, at offset `0`. -/
def open_handle (fs : FS) : Handle :=
  match fs.dir 0 with
  | some (Entry.file ino) => Handle.file ino 0
  | _ => Handle.other

/-- Result of `lseek (ofd, 0, SEEK_END)`: the descriptor at the end of its file. -/
def seek_end (fs : FS) : Handle → Handle
  | Handle.file ino _ => Handle.file ino (fs.data ino).length
  | Handle.other => Handle.other

/-- A successful `open (dest_filename, O_WRONLY | O_CREAT | O_TRUNC, ...)` made
at `clock`: a missing file is created as a new inode, a regular file is
truncated (under all its names), another kind of node is opened as it is. -/
def sys_open_trunc (fs : FS) (clock : Nat) : FS :=
  match fs.dir 0 with
  | none =>
    { dir := fun k => if k = 0 then some (Entry.file (Ino.made clock)) else fs.dir k,
      data := fun i => if i = Ino.made clock then [] else fs.data i }
  | some (Entry.file ino) =>
    { fs with data := fun i => if i = ino then [] else fs.data i }
  | some Entry.other => fs

/-- Bytes written through `ofd`. -/
def sys_write (fs : FS) (ofd : Option Handle) (bytes : List Byte) : FS :=
  match ofd with
  | some (Handle.file ino offset) => fs.write_at ino offset bytes
  | _ => fs

/-- The descriptor after `n` bytes went through it. -/
def advance (ofd : Option Handle) (n : Nat) : Option Handle :=
  match ofd with
  | some (Handle.file ino offset) => some (Handle.file ino (offset + n))
  | other => other

/-- Lines 334-340 when the process survives the call: the bytes the write to
descriptor 1 transfers land in the file it is open on, at its offset or at the
end of the file under `O_APPEND`. -/
def sys_echo (outcome : WriteOutcome) (s : Run) (data : List Byte) : Run :=
  match s.stdout with
  | Sink.outside => s
  | Sink.file n offset append =>
    let position := if append then (s.fs.data (Ino.old n)).length else offset
    { s with fs := s.fs.write_at (Ino.old n) position (transferred outcome data),
             stdout := Sink.file n (position + (transferred outcome data).length) append }

/-- The `for` loop of `_backup_bucket` (lines 227-243), entered with
`retval = TRUE`, at `dest_index`. -/
def backup_loop (h : Host) : Nat → Run → Run × Bool
  | 0, s => (s, true)
  | i + 1, s =>
    let dest_index := i + 1
    let src := if dest_index > 1 then dest_index - 1 else 0
    let dest := dest_index
    if is_regular (s.fs.view src) then
      if h.ok s.clock then
        backup_loop h i { s with fs := sys_rename s.fs src dest, clock := s.clock + 1 }
      else
        ({ s with clock := s.clock + 1 }, false)
    else
      backup_loop h i s

def _backup_bucket (args : arguments) (h : Host) (s : Run) : Run × Bool :=
  backup_loop h args.backup_buckets s

/-- Lines 274-311: choose the bucket of this cycle. -/
def select_bucket (args : arguments) (h : Host) (s : Run) : Run :=
  if reuse_condition args s.fs.view then
    if h.ok s.clock then
      if h.ok (s.clock + 1) then
        { s with ofd := some (seek_end s.fs (open_handle s.fs)),
                 bucket_size := st_size (s.fs.view 0),
                 clock := s.clock + 2 }
      else
        { s with ofd := some (open_handle s.fs),
                 bucket_size := SIZE_MOD - 1,
                 busy := false,
                 clock := s.clock + 2 }
    else
      { s with ofd := none, busy := false, clock := s.clock + 1 }
  else
    let r := _backup_bucket args h s
    if r.2 then
      if h.ok r.1.clock then
        { r.1 with fs := sys_open_trunc r.1.fs r.1.clock,
                   ofd := some (open_handle (sys_open_trunc r.1.fs r.1.clock)),
                   clock := r.1.clock + 1 }
      else
        { r.1 with ofd := none, busy := false, clock := r.1.clock + 1 }
    else
      { r.1 with busy := false }

/-- Lines 342-349: the write to the bucket and the update of the counter. -/
def write_bucket (args : arguments) (h : Host) (s : Run) (data : List Byte) : Run :=
  match h.write s.clock with
  | WriteOutcome.full =>
    let bucket_size := size_add s.bucket_size data.length
    { s with fs := sys_write s.fs s.ofd data,
             ofd := advance s.ofd data.length,
             bucket_size := bucket_size,
             overflow := decide (bucket_size ≥ args.overflow_bytesize),
             clock := s.clock + 1 }
  | WriteOutcome.short k =>
    { s with fs := sys_write s.fs s.ofd (transferred (WriteOutcome.short k) data),
             ofd := advance s.ofd (transferred (WriteOutcome.short k) data).length,
             busy := false,
             clock := s.clock + 1 }
  | WriteOutcome.error =>
    { s with busy := false, clock := s.clock + 1 }

/-- Lines 314-350: one iteration of the inner loop.  When standard output is a
pipe whose reader is gone the write of line 335 raises `SIGPIPE` and the
process ends there; otherwise the write returns, its result is ignored, and
the bucket is written. -/
def copy_step (args : arguments) (h : Host) (s : Run) : Run :=
  let request := max_read_size args s.bucket_size
  match h.read s.clock with
  | ReadOutcome.error =>
    { s with busy := false, clock := s.clock + 1 }
  | ReadOutcome.deliver want =>
    let data := s.input.take (min (max want 1) request)
    let read_size := data.length
    let s1 : Run := { s with input := s.input.drop read_size, clock := s.clock + 1 }
    if read_size = 0 then
      { s1 with busy := false }
    else if args.stdout && decide (s1.stdout = Sink.outside) && h.sigpipe s.clock then
      { s1 with busy := false, killed := true }
    else
      write_bucket args h (if args.stdout then sys_echo (h.echo s.clock) s1 data else s1) data

/-- Lines 313-351: the inner loop. -/
def copy_loop (args : arguments) (h : Host) : Nat → Run → Run
  | 0, s => s
  | fuel + 1, s =>
    if s.busy && !s.overflow then copy_loop args h fuel (copy_step args h s) else s

/-- Lines 353-356: close the bucket. -/
def close_bucket (s : Run) : Run :=
  { s with ofd := none }

/-- Lines 271-356: the body of the outer `while (busy)`. -/
def cycle (args : arguments) (h : Host) (s : Run) : Run :=
  let s0 : Run := { s with bucket_size := 0, overflow := false }
  let s1 := select_bucket args h s0
  let s2 := copy_loop args h (s1.input.length + 1) s1
  close_bucket s2

/-- Lines 270-357: the outer loop. -/
def main_loop (args : arguments) (h : Host) : Nat → Run → Run
  | 0, s => s
  | fuel + 1, s => if s.busy then main_loop args h fuel (cycle args h s) else s

/-- Lines 253-268: the state in which the outer loop is entered. -/
def initial (h : Host) (fs : FS) (stdout : Sink) (input : List Byte) : Run :=
  { fs := fs, stdout := stdout, input := input, clock := 1, busy := h.ok 0, killed := false,
    ofd := none, bucket_size := 0, overflow := false }

/-- The program after option parsing: `main` from line 254 on. -/
def main (args : arguments) (h : Host) (fs : FS) (stdout : Sink) (input : List Byte) : Run :=
  main_loop args h (input.length + 1) (initial h fs stdout input)

/-- A host without failure or signal that serves reads as `want` dictates. -/
def calm (want : Nat → Nat) : Host :=
  { ok := fun _ => true,
    read := fun t => ReadOutcome.deliver (want t),
    write := fun _ => WriteOutcome.full,
    echo := fun _ => WriteOutcome.full,
    sigpipe := fun _ => false }

end Posix

/-! ## Shared lemmas: `_backup_bucket` -/

theorem is_regular_none : is_regular none = false := rfl

theorem rotated_succ_of_regular (i : Nat) (d : Disk) (h : is_regular (d i) = true) :
    rotated i (sys_rename d i (i + 1)) = rotated (i + 1) d := by
  funext k
  unfold rotated sys_rename
  by_cases hk0 : k = 0
  · subst hk0
    by_cases hi : i = 0
    · subst hi; simp [h, is_regular_none]
    · have : 1 ≤ i := by omega
      simp [this, hi, Ne.symm hi]
  · by_cases hk1 : k = i + 1
    · subst hk1
      have h1 : ¬ (i + 1 ≤ i) := by omega
      simp [h1, h]
    · by_cases hk2 : k = i
      · subst hk2
        have h1 : 1 ≤ k := by omega
        have h2 : k - 1 ≠ k + 1 := by omega
        have h3 : k - 1 ≠ k := by omega
        simp [h1, h2, h3, h, is_regular_none, hk0]
      · by_cases hk3 : k ≤ i
        · have h1 : 1 ≤ k := by omega
          have h2 : k - 1 ≠ i + 1 := by omega
          have h3 : k - 1 ≠ i := by omega
          have h4 : k < i := by omega
          have h5 : k ≤ i + 1 := by omega
          have h6 : k < i + 1 := by omega
          simp [h1, h2, h3, h4, h5, h6, hk1, hk2, hk3]
        · have h5 : ¬ (k ≤ i + 1) := by omega
          simp [hk0, hk1, hk2, hk3, h5]

theorem rotated_succ_of_not_regular (i : Nat) (d : Disk) (h : is_regular (d i) = false) :
    rotated i d = rotated (i + 1) d := by
  funext k
  unfold rotated
  by_cases hk0 : k = 0
  · subst hk0
    by_cases hi : i = 0
    · subst hi; simp [h]
    · have : 1 ≤ i := by omega
      simp [this]
  · by_cases hk1 : k = i + 1
    · subst hk1
      have h1 : ¬ (i + 1 ≤ i) := by omega
      simp [h1, h]
    · by_cases hk2 : k = i
      · subst hk2
        have h1 : 1 ≤ k := by omega
        simp [h1, h]
      · by_cases hk3 : k ≤ i
        · have h1 : 1 ≤ k := by omega
          have h4 : k < i := by omega
          have h5 : k ≤ i + 1 := by omega
          have h6 : k < i + 1 := by omega
          simp [h1, h4, h5, h6, hk3]
        · have h5 : ¬ (k ≤ i + 1) := by omega
          simp [hk0, hk3, h5]

theorem backup_src_eq (i : Nat) : (if i + 1 > 1 then i + 1 - 1 else 0) = i := by
  by_cases h : i = 0
  · subst h; simp
  · have : i + 1 > 1 := by omega
    simp [this]

/-- What the rotation loop leaves alone, and the disk it yields when it
returns `TRUE`. -/
theorem backup_loop_spec (w : World) (i : Nat) (s : Run) :
    (backup_loop w i s).1.input = s.input ∧
    (backup_loop w i s).1.busy = s.busy ∧
    (backup_loop w i s).1.ofd = s.ofd ∧
    (backup_loop w i s).1.bucket_size = s.bucket_size ∧
    (backup_loop w i s).1.overflow = s.overflow ∧
    ((backup_loop w i s).2 = true → (backup_loop w i s).1.disk = rotated i s.disk) := by
  induction i generalizing s with
  | zero =>
    refine ⟨rfl, rfl, rfl, rfl, rfl, ?_⟩
    intro _
    funext k
    have h1 : ¬ (1 ≤ k ∧ k ≤ 0) := by omega
    have h2 : ¬ (k = 0 ∧ 1 ≤ 0 ∧ is_regular (s.disk 0) = true) := by omega
    simp only [backup_loop, rotated, if_neg h1, if_neg h2]
  | succ i ih =>
    unfold backup_loop
    simp only [backup_src_eq]
    by_cases hreg : is_regular (s.disk i) = true
    · by_cases hok : w.ok s.clock = true
      · simp only [hreg, hok, if_true]
        obtain ⟨h1, h2, h3, h4, h5, h6⟩ := ih
          { s with disk := sys_rename s.disk i (i + 1), clock := s.clock + 1,
                   trace := s.trace ++ [Event.rename i (i + 1) true] }
        refine ⟨h1, h2, h3, h4, h5, ?_⟩
        intro hr
        rw [h6 hr]
        exact rotated_succ_of_regular i s.disk hreg
      · simp [hreg, hok]
    · simp only [hreg]
      obtain ⟨h1, h2, h3, h4, h5, h6⟩ := ih s
      refine ⟨h1, h2, h3, h4, h5, ?_⟩
      intro hr
      simp only [Bool.false_eq_true, if_false] at hr ⊢
      rw [h6 hr]
      exact rotated_succ_of_not_regular i s.disk (by simpa using hreg)

/-- In a world where no system call fails the rotation returns `TRUE`. -/
theorem backup_loop_ok (w : World) (hw : ∀ t, w.ok t = true) (i : Nat) (s : Run) :
    (backup_loop w i s).2 = true := by
  induction i generalizing s with
  | zero => rfl
  | succ i ih =>
    unfold backup_loop
    simp only [backup_src_eq, hw, if_true]
    split
    · exact ih _
    · exact ih _

/-! ## Shared lemmas: sizes -/

theorem size_sub_eq (T b : Nat) (hT : T < SIZE_MOD) (hb : b ≤ T) : size_sub T b = T - b := by
  unfold size_sub
  have hb2 : b < SIZE_MOD := by omega
  rw [Nat.mod_eq_of_lt hT, Nat.mod_eq_of_lt hb2]
  have h : T + SIZE_MOD - b = (T - b) + SIZE_MOD := by omega
  rw [h, Nat.add_mod_right]
  exact Nat.mod_eq_of_lt (by omega)

theorem size_add_eq (b n : Nat) (h : b + n < SIZE_MOD) : size_add b n = b + n := by
  unfold size_add
  exact Nat.mod_eq_of_lt h

theorem buffer_size_pos (args : arguments) : 1 ≤ buffer_size args := by
  unfold buffer_size
  split_ifs <;> omega

theorem buffer_size_le (args : arguments) : buffer_size args ≤ 32768 := by
  unfold buffer_size
  split_ifs <;> omega

theorem buffer_size_le_threshold (args : arguments) (h : 0 < args.overflow_bytesize) :
    buffer_size args ≤ args.overflow_bytesize := by
  unfold buffer_size
  split_ifs <;> omega

theorem max_read_size_unbounded (args : arguments) (b : Nat) (h : args.overflow_bytesize = 0) :
    max_read_size args b = buffer_size args := by
  simp [max_read_size, h]

theorem max_read_size_bounded (args : arguments) (b : Nat) (h0 : 0 < args.overflow_bytesize)
    (hT : args.overflow_bytesize < SIZE_MOD) (hb : b ≤ args.overflow_bytesize) :
    max_read_size args b = min (args.overflow_bytesize - b) (buffer_size args) := by
  have hne : args.overflow_bytesize ≠ 0 := by omega
  simp only [max_read_size, hne, if_false, size_sub_eq _ _ hT hb]
  split_ifs <;> omega

theorem take_length_take (k : Nat) (l : List Byte) : l.take (l.take k).length = l.take k := by
  rw [List.length_take]
  by_cases h : k ≤ l.length
  · rw [Nat.min_eq_left h]
  · have h2 : l.length ≤ k := by omega
    rw [Nat.min_eq_right h2, List.take_of_length_le h2, List.take_of_length_le (le_refl _)]

/-! ## Shared lemmas: one iteration of the copy loop without I/O failure -/

theorem copy_step_reliable (args : arguments) (w : World) (hw : w.reliable) (s : Run) :
    ∃ n, n ≤ max_read_size args s.bucket_size ∧ n ≤ s.input.length ∧
      (0 < max_read_size args s.bucket_size → s.input ≠ [] → 0 < n) ∧
      (copy_step args w s).input = s.input.drop n ∧
      (copy_step args w s).ofd = s.ofd ∧
      (n = 0 → (copy_step args w s).busy = false ∧ (copy_step args w s).disk = s.disk ∧
        (copy_step args w s).overflow = s.overflow ∧
        (copy_step args w s).bucket_size = s.bucket_size) ∧
      (0 < n → (copy_step args w s).busy = s.busy ∧
        (copy_step args w s).disk = sys_write s.disk (s.input.take n) ∧
        (copy_step args w s).bucket_size = size_add s.bucket_size n ∧
        (copy_step args w s).overflow
          = decide (size_add s.bucket_size n ≥ args.overflow_bytesize)) := by
  obtain ⟨-, -, hr⟩ := hw s.clock
  have hwr : ∀ t, w.write t = WriteOutcome.full := fun t => (hw t).2.1
  cases hread : w.read s.clock with
  | error => exact absurd hread hr
  | deliver want =>
    refine ⟨(s.input.take (min (max want 1) (max_read_size args s.bucket_size))).length,
      ?_, ?_, ?_, ?_, ?_, ?_, ?_⟩
    · rw [List.length_take]; omega
    · rw [List.length_take]; omega
    · intro hpos hne
      rw [List.length_take]
      have : 0 < s.input.length := List.length_pos.mpr hne
      omega
    · unfold copy_step
      simp only [hread]
      split_ifs <;> simp [hwr]
    · unfold copy_step
      simp only [hread]
      split_ifs <;> simp [hwr]
    · intro h0
      unfold copy_step
      simp only [hread, h0, if_true]
      exact ⟨trivial, trivial, trivial, trivial⟩
    · intro hpos
      have hne : (s.input.take (min (max want 1) (max_read_size args s.bucket_size))).length ≠ 0 := by
        omega
      unfold copy_step
      simp only [hread, hne, if_false, take_length_take]
      split_ifs <;> simp [hwr]

/-! ## Shared lemmas: the copy loop without I/O failure -/

theorem copy_loop_done (args : arguments) (w : World) (fuel : Nat) (s : Run)
    (h : (s.busy && !s.overflow) = false) : copy_loop args w fuel s = s := by
  cases fuel with
  | zero => rfl
  | succ fuel => simp [copy_loop, h]

theorem sys_write_nil (d : Disk) : sys_write d [] = d := by
  funext k
  unfold sys_write
  by_cases hk : k = 0
  · subst hk
    simp only [if_true]
    split <;> simp_all
  · simp [hk]

theorem sys_write_write (d : Disk) (a b : List Byte) :
    sys_write (sys_write d a) b = sys_write d (a ++ b) := by
  funext k
  unfold sys_write
  by_cases hk : k = 0
  · subst hk
    simp only [if_true]
    cases h : d 0 with
    | none => rfl
    | some n =>
      cases n with
      | regular c => simp
      | other => rfl
  · simp [hk]

/-- With a positive threshold and no I/O failure the copy loop moves exactly the
bytes that fit below the threshold, or all the input when that is less. -/
theorem copy_loop_bounded (args : arguments) (w : World) (hw : w.reliable)
    (h0 : 0 < args.overflow_bytesize) (hT : args.overflow_bytesize < SIZE_MOD)
    (fuel : Nat) (s : Run)
    (hbusy : s.busy = true) (hov : s.overflow = false)
    (hb : s.bucket_size < args.overflow_bytesize) (hfuel : s.input.length < fuel) :
    (copy_loop args w fuel s).disk
        = sys_write s.disk (s.input.take (args.overflow_bytesize - s.bucket_size)) ∧
    (copy_loop args w fuel s).input = s.input.drop (args.overflow_bytesize - s.bucket_size) ∧
    (copy_loop args w fuel s).busy
        = decide (args.overflow_bytesize - s.bucket_size ≤ s.input.length) ∧
    (copy_loop args w fuel s).overflow
        = decide (args.overflow_bytesize - s.bucket_size ≤ s.input.length) ∧
    (copy_loop args w fuel s).ofd = s.ofd := by
  induction fuel generalizing s with
  | zero => omega
  | succ fuel ih =>
    have hcond : (s.busy && !s.overflow) = true := by simp [hbusy, hov]
    simp only [copy_loop, hcond, if_true]
    obtain ⟨n, hn1, hn2, hn3, hin, hofd, hz, hp⟩ := copy_step_reliable args w hw s
    rw [max_read_size_bounded args _ h0 hT (le_of_lt hb)] at hn1 hn3
    have hbuf := buffer_size_pos args
    by_cases hn : n = 0
    · obtain ⟨hz1, hz2, hz3, hz4⟩ := hz hn
      have hnil : s.input = [] := by
        by_contra hne
        have := hn3 (by omega) hne
        omega
      rw [copy_loop_done args w fuel _ (by simp [hz1])]
      rw [hz1, hz2, hz3, hin, hofd, hnil, hov]
      simp only [List.take_nil, List.drop_nil, sys_write_nil, List.length_nil]
      refine ⟨trivial, trivial, ?_, ?_, trivial⟩ <;>
      · symm
        rw [decide_eq_false_iff_not]
        omega
    · obtain ⟨hp1, hp2, hp3, hp4⟩ := hp (by omega)
      have hle : n ≤ args.overflow_bytesize - s.bucket_size := by omega
      rw [size_add_eq _ _ (by omega)] at hp3 hp4
      by_cases hfull : s.bucket_size + n = args.overflow_bytesize
      · have hov2 : (copy_step args w s).overflow = true := by
          rw [hp4]; simp [hfull]
        rw [copy_loop_done args w fuel _ (by simp [hov2])]
        have hn4 : args.overflow_bytesize - s.bucket_size = n := by omega
        rw [hp1, hp2, hov2, hin, hofd, hn4, hbusy]
        refine ⟨rfl, rfl, ?_, ?_, rfl⟩ <;>
        · symm
          rw [decide_eq_true_iff]
          exact hn2
      · have hov2 : (copy_step args w s).overflow = false := by
          rw [hp4, decide_eq_false_iff_not]; omega
        have hb2 : (copy_step args w s).bucket_size < args.overflow_bytesize := by
          rw [hp3]; omega
        have hfuel2 : (copy_step args w s).input.length < fuel := by
          rw [hin, List.length_drop]; omega
        obtain ⟨i1, i2, i3, i4, i5⟩ := ih (copy_step args w s) (by rw [hp1, hbusy]) hov2 hb2 hfuel2
        rw [i1, i2, i3, i4, i5, hp2, hp3, hin, hofd, sys_write_write, List.length_drop,
          List.drop_drop]
        have e1 : args.overflow_bytesize - (s.bucket_size + n)
            = args.overflow_bytesize - s.bucket_size - n := by omega
        have e2 : n + (args.overflow_bytesize - s.bucket_size - n)
            = args.overflow_bytesize - s.bucket_size := by omega
        have e3 : List.take n s.input
              ++ List.take (args.overflow_bytesize - s.bucket_size - n) (List.drop n s.input)
            = List.take (args.overflow_bytesize - s.bucket_size) s.input := by
          have := List.take_add s.input n (args.overflow_bytesize - s.bucket_size - n)
          rw [e2] at this
          exact this.symm
        rw [e1, e3]
        refine ⟨rfl, ?_, ?_, ?_, rfl⟩
        · congr 1
        · congr 1; apply propext; constructor <;> intro h <;> omega
        · congr 1; apply propext; constructor <;> intro h <;> omega

/-- Without I/O failure an unbounded copy loop runs one iteration (the overflow
test `bucket_size >= 0` holds after every write). -/
theorem copy_loop_unbounded (args : arguments) (w : World) (hw : w.reliable)
    (h0 : args.overflow_bytesize = 0) (fuel : Nat) (s : Run)
    (hbusy : s.busy = true) (hov : s.overflow = false) :
    ∃ n, n ≤ s.input.length ∧ (s.input ≠ [] → 0 < n) ∧
      (copy_loop args w (fuel + 1) s).disk = sys_write s.disk (s.input.take n) ∧
      (copy_loop args w (fuel + 1) s).input = s.input.drop n ∧
      (copy_loop args w (fuel + 1) s).busy = decide (0 < n) ∧
      (copy_loop args w (fuel + 1) s).overflow = decide (0 < n) ∧
      (copy_loop args w (fuel + 1) s).ofd = s.ofd := by
  have hcond : (s.busy && !s.overflow) = true := by simp [hbusy, hov]
  simp only [copy_loop, hcond, if_true]
  obtain ⟨n, -, hn2, hn3, hin, hofd, hz, hp⟩ := copy_step_reliable args w hw s
  rw [max_read_size_unbounded args _ h0] at hn3
  have hbuf := buffer_size_pos args
  refine ⟨n, hn2, hn3 (by omega), ?_⟩
  by_cases hn : n = 0
  · obtain ⟨hz1, hz2, hz3, hz4⟩ := hz hn
    rw [copy_loop_done args w fuel _ (by simp [hz1])]
    rw [hz1, hz2, hz3, hin, hofd, hn, hov]
    simp [sys_write_nil]
  · obtain ⟨hp1, hp2, hp3, hp4⟩ := hp (by omega)
    have hov2 : (copy_step args w s).overflow = true := by
      rw [hp4]; simp [h0]
    rw [copy_loop_done args w fuel _ (by simp [hov2])]
    rw [hp1, hp2, hov2, hin, hofd, hbusy]
    have : 0 < n := by omega
    simp [this]

/-! ## Shared lemmas: bucket selection without I/O failure -/

theorem select_fresh (args : arguments) (w : World) (hw : w.reliable) (s : Run)
    (h : reuse_condition args s.disk = false) :
    (select_bucket args w s).disk = sys_open_trunc (rotated args.backup_buckets s.disk) ∧
    (select_bucket args w s).input = s.input ∧
    (select_bucket args w s).busy = s.busy ∧
    (select_bucket args w s).ofd = true ∧
    (select_bucket args w s).bucket_size = s.bucket_size ∧
    (select_bucket args w s).overflow = s.overflow := by
  have hok : ∀ t, w.ok t = true := fun t => (hw t).1
  have hret := backup_loop_ok w hok args.backup_buckets s
  obtain ⟨b1, b2, b3, b4, b5, b6⟩ := backup_loop_spec w args.backup_buckets s
  simp only [select_bucket, h, _backup_bucket, hret, hok, if_true, Bool.false_eq_true, if_false]
  exact ⟨by rw [b6 hret], b1, b2, trivial, b4, b5⟩

theorem select_reuse (args : arguments) (w : World) (hw : w.reliable) (s : Run)
    (h : reuse_condition args s.disk = true) :
    (select_bucket args w s).disk = s.disk ∧
    (select_bucket args w s).input = s.input ∧
    (select_bucket args w s).busy = s.busy ∧
    (select_bucket args w s).ofd = true ∧
    (select_bucket args w s).bucket_size = st_size (s.disk 0) ∧
    (select_bucket args w s).overflow = s.overflow := by
  have hok : ∀ t, w.ok t = true := fun t => (hw t).1
  simp [select_bucket, h, hok]

theorem close_bucket_fields (s : Run) :
    (close_bucket s).disk = s.disk ∧ (close_bucket s).input = s.input ∧
    (close_bucket s).busy = s.busy ∧ (close_bucket s).ofd = false ∧
    (close_bucket s).bucket_size = s.bucket_size ∧
    (close_bucket s).overflow = s.overflow := by
  unfold close_bucket
  by_cases h : s.ofd = true
  · simp [h]
  · simp [h]

theorem cycle_eq (args : arguments) (w : World) (s : Run) (fuel : Nat)
    (h : fuel
      = (select_bucket args w { s with bucket_size := 0, overflow := false }).input.length + 1) :
    cycle args w s
      = close_bucket (copy_loop args w fuel
          (select_bucket args w { s with bucket_size := 0, overflow := false })) := by
  subst h
  rfl

theorem cycle_fresh_bounded (args : arguments) (w : World) (hw : w.reliable)
    (h0 : 0 < args.overflow_bytesize) (hT : args.overflow_bytesize < SIZE_MOD) (s : Run)
    (hbusy : s.busy = true) (h : reuse_condition args s.disk = false) :
    (cycle args w s).disk
      = sys_write (sys_open_trunc (rotated args.backup_buckets s.disk))
          (s.input.take args.overflow_bytesize) ∧
    (cycle args w s).input = s.input.drop args.overflow_bytesize ∧
    (cycle args w s).busy = decide (args.overflow_bytesize ≤ s.input.length) := by
  obtain ⟨s1, s2, s3, s4, s5, s6⟩ :=
    select_fresh args w hw { s with bucket_size := 0, overflow := false } h
  obtain ⟨c1, c2, c3, -, -⟩ := copy_loop_bounded args w hw h0 hT (s.input.length + 1)
    (select_bucket args w { s with bucket_size := 0, overflow := false })
    (by rw [s3]; exact hbusy) (by rw [s6]) (by rw [s5]; exact h0) (by rw [s2]; exact Nat.lt_succ_self _)
  obtain ⟨k1, k2, k3, -, -, -⟩ := close_bucket_fields
    (copy_loop args w (s.input.length + 1)
      (select_bucket args w { s with bucket_size := 0, overflow := false }))
  rw [s1, s2, s5] at c1
  rw [s2, s5] at c2 c3
  simp only [Nat.sub_zero] at c1 c2 c3
  rw [cycle_eq args w s (s.input.length + 1) (by rw [s2])]
  exact ⟨k1.trans c1, k2.trans c2, k3.trans c3⟩

theorem cycle_unbounded (args : arguments) (w : World) (hw : w.reliable)
    (h0 : args.overflow_bytesize = 0) (s : Run) (hbusy : s.busy = true) :
    ∃ n, n ≤ s.input.length ∧ (s.input ≠ [] → 0 < n) ∧
      (cycle args w s).disk
        = sys_write (if reuse_condition args s.disk then s.disk
            else sys_open_trunc (rotated args.backup_buckets s.disk)) (s.input.take n) ∧
      (cycle args w s).input = s.input.drop n ∧
      (cycle args w s).busy = decide (0 < n) := by
  have hsel : (select_bucket args w { s with bucket_size := 0, overflow := false }).disk
        = (if reuse_condition args s.disk then s.disk
            else sys_open_trunc (rotated args.backup_buckets s.disk)) ∧
      (select_bucket args w { s with bucket_size := 0, overflow := false }).input = s.input ∧
      (select_bucket args w { s with bucket_size := 0, overflow := false }).busy = true ∧
      (select_bucket args w { s with bucket_size := 0, overflow := false }).overflow = false := by
    by_cases h : reuse_condition args s.disk = true
    · obtain ⟨s1, s2, s3, -, -, s6⟩ :=
        select_reuse args w hw { s with bucket_size := 0, overflow := false } h
      rw [if_pos h]
      exact ⟨s1, s2, s3.trans hbusy, s6⟩
    · have h2 : reuse_condition args s.disk = false := by simpa using h
      obtain ⟨s1, s2, s3, -, -, s6⟩ :=
        select_fresh args w hw { s with bucket_size := 0, overflow := false } h2
      rw [if_neg h]
      exact ⟨s1, s2, s3.trans hbusy, s6⟩
  obtain ⟨s1, s2, s3, s6⟩ := hsel
  obtain ⟨n, n1, n2, c1, c2, c3, -, -⟩ := copy_loop_unbounded args w hw h0 s.input.length
    (select_bucket args w { s with bucket_size := 0, overflow := false }) s3 s6
  obtain ⟨k1, k2, k3, -, -, -⟩ := close_bucket_fields
    (copy_loop args w (s.input.length + 1)
      (select_bucket args w { s with bucket_size := 0, overflow := false }))
  rw [s2] at n1 n2 c2
  rw [s1, s2] at c1
  refine ⟨n, n1, n2, ?_⟩
  rw [cycle_eq args w s (s.input.length + 1) (by rw [s2])]
  exact ⟨k1.trans c1, k2.trans c2, k3.trans c3⟩

/-! ## Shared lemmas: the outer loop without I/O failure -/

theorem main_loop_done (args : arguments) (w : World) (fuel : Nat) (s : Run)
    (h : s.busy = false) : main_loop args w fuel s = s := by
  cases fuel with
  | zero => rfl
  | succ fuel => simp [main_loop, h]

theorem is_regular_sys_write (d : Disk) (data : List Byte) (h : is_regular (d 0) = true) :
    is_regular (sys_write d data 0) = true := by
  unfold sys_write
  simp only [if_true]
  cases hd : d 0 with
  | none => rw [hd] at h; exact absurd h (by simp [is_regular])
  | some n =>
    cases n with
    | regular c => simp [is_regular]
    | other => rw [hd] at h; exact absurd h (by simp [is_regular])

theorem main_loop_unbounded (args : arguments) (w : World) (hw : w.reliable)
    (h0 : args.overflow_bytesize = 0) (hnew : args.new_bucket = false)
    (fuel : Nat) (s : Run) (hbusy : s.busy = true) (hreg : is_regular (s.disk 0) = true)
    (hfuel : s.input.length < fuel) :
    (main_loop args w fuel s).disk = sys_write s.disk s.input ∧
    (main_loop args w fuel s).input = [] ∧
    (main_loop args w fuel s).busy = false := by
  induction fuel generalizing s with
  | zero => omega
  | succ fuel ih =>
    simp only [main_loop, hbusy, if_true]
    have hre : reuse_condition args s.disk = true := by
      simp [reuse_condition, hnew, hreg, h0]
    obtain ⟨n, n1, n2, c1, c2, c3⟩ := cycle_unbounded args w hw h0 s hbusy
    rw [if_pos hre] at c1
    by_cases hn : n = 0
    · have hnil : s.input = [] := by
        by_contra hne
        have := n2 hne
        omega
      have hb : (cycle args w s).busy = false := by rw [c3]; simp [hn]
      rw [main_loop_done args w fuel _ hb, c1, c2, hb, hnil]
      simp
    · have hb : (cycle args w s).busy = true := by
        rw [c3]; simp; omega
      have hr2 : is_regular ((cycle args w s).disk 0) = true := by
        rw [c1]; exact is_regular_sys_write _ _ hreg
      have hf2 : (cycle args w s).input.length < fuel := by
        rw [c2, List.length_drop]; omega
      obtain ⟨i1, i2, i3⟩ := ih (cycle args w s) hb hr2 hf2
      rw [i1, i2, i3, c1, c2, sys_write_write, List.take_append_drop]
      exact ⟨rfl, rfl, rfl⟩

theorem sys_write_layout (input : List Byte) (T N k : Nat) (a b : List Byte) :
    sys_write (layout input T N k a) b = layout input T N k (a ++ b) := by
  funext i
  unfold sys_write layout
  by_cases hi : i = 0
  · subst hi; simp
  · simp [hi]

theorem reuse_condition_layout (args : arguments) (input : List Byte) (N k : Nat)
    (a : List Byte) (h0 : 0 < args.overflow_bytesize) (ha : a.length = args.overflow_bytesize) :
    reuse_condition args (layout input args.overflow_bytesize N k a) = false := by
  have hne : args.overflow_bytesize ≠ 0 := by omega
  simp [reuse_condition, layout, st_size, hne, ha]

theorem reuse_condition_emptyDisk (args : arguments) :
    reuse_condition args emptyDisk = false := by
  simp [reuse_condition, emptyDisk, is_regular]

theorem rotate_emptyDisk (input : List Byte) (T N : Nat) :
    sys_open_trunc (rotated N emptyDisk) = layout input T N 0 [] := by
  funext i
  unfold sys_open_trunc rotated layout emptyDisk
  by_cases hi : i = 0
  · subst hi; simp [is_regular]
  · simp [hi, is_regular]

theorem rotate_layout (input : List Byte) (T N k : Nat) :
    sys_open_trunc (rotated N (layout input T N k ((input.drop (k * T)).take T)))
      = layout input T N (k + 1) [] := by
  funext i
  by_cases hi : i = 0
  · subst hi
    by_cases hN : 1 ≤ N
    · simp [sys_open_trunc, rotated, layout, is_regular, hN]
    · simp [sys_open_trunc, rotated, layout, is_regular, hN]
  · have h1 : 1 ≤ i := by omega
    simp only [sys_open_trunc, if_neg hi]
    unfold rotated
    by_cases hiN : i ≤ N
    · simp only [h1, hiN, and_self, if_true]
      by_cases hik : i ≤ k + 1
      · by_cases hi1 : i = 1
        · subst hi1
          simp [layout, is_regular, hiN]
        · have e1 : i - 1 ≠ 0 := by omega
          have e2 : i - 1 ≤ min k N := by omega
          have e3 : i ≤ min (k + 1) N := by omega
          have e4 : k - (i - 1) = k + 1 - i := by omega
          simp [layout, is_regular, e1, e2, e3, e4, hi]
      · have e1 : i - 1 ≠ 0 := by omega
        have e2 : ¬ (i - 1 ≤ min k N) := by omega
        have e3 : ¬ (i ≤ min (k + 1) N) := by omega
        have e5 : ¬ (i ≤ min k N) := by omega
        simp [layout, is_regular, e1, e2, e3, e5, hi]
    · have e0 : ¬ (1 ≤ i ∧ i ≤ N) := by omega
      have e3 : ¬ (i ≤ min (k + 1) N) := by omega
      have e5 : ¬ (i ≤ min k N) := by omega
      simp [layout, e0, e3, e5, hi]

theorem main_loop_bounded (args : arguments) (w : World) (hw : w.reliable)
    (h0 : 0 < args.overflow_bytesize) (hT : args.overflow_bytesize < SIZE_MOD)
    (input : List Byte) (fuel : Nat) (k : Nat) (s : Run)
    (hbusy : s.busy = true) (hre : reuse_condition args s.disk = false)
    (hdisk : sys_open_trunc (rotated args.backup_buckets s.disk)
      = layout input args.overflow_bytesize args.backup_buckets k [])
    (hin : s.input = input.drop (k * args.overflow_bytesize))
    (hk : k * args.overflow_bytesize ≤ input.length)
    (hfuel : s.input.length < fuel) :
    (main_loop args w fuel s).disk
      = layout input args.overflow_bytesize args.backup_buckets
          (input.length / args.overflow_bytesize)
          (input.drop (input.length / args.overflow_bytesize * args.overflow_bytesize)) ∧
    (main_loop args w fuel s).input = [] ∧
    (main_loop args w fuel s).busy = false := by
  induction fuel generalizing s k with
  | zero => omega
  | succ fuel ih =>
    simp only [main_loop, hbusy, if_true]
    obtain ⟨c1, c2, c3⟩ := cycle_fresh_bounded args w hw h0 hT s hbusy hre
    rw [hdisk, sys_write_layout, List.nil_append] at c1
    have hlen : s.input.length = input.length - k * args.overflow_bytesize := by
      rw [hin, List.length_drop]
    by_cases hfull : args.overflow_bytesize ≤ s.input.length
    · have hb : (cycle args w s).busy = true := by rw [c3]; simp [hfull]
      have hk2 : (k + 1) * args.overflow_bytesize ≤ input.length := by
        rw [Nat.add_mul, Nat.one_mul]; omega
      have hin2 : (cycle args w s).input = input.drop ((k + 1) * args.overflow_bytesize) := by
        rw [c2, hin, List.drop_drop, Nat.add_mul, Nat.one_mul]
      have hd2 : (cycle args w s).disk
          = layout input args.overflow_bytesize args.backup_buckets k
              ((input.drop (k * args.overflow_bytesize)).take args.overflow_bytesize) := by
        rw [c1, hin]
      have hre2 : reuse_condition args (cycle args w s).disk = false := by
        rw [hd2]
        apply reuse_condition_layout args input _ _ _ h0
        rw [List.length_take, List.length_drop]
        omega
      have hdisk2 : sys_open_trunc (rotated args.backup_buckets (cycle args w s).disk)
          = layout input args.overflow_bytesize args.backup_buckets (k + 1) [] := by
        rw [hd2, rotate_layout]
      have hf2 : (cycle args w s).input.length < fuel := by
        rw [c2, List.length_drop]; omega
      exact ih (k + 1) (cycle args w s) hb hre2 hdisk2 hin2 hk2 hf2
    · have hb : (cycle args w s).busy = false := by rw [c3]; simp [hfull]
      have hq : input.length / args.overflow_bytesize = k := by
        apply Nat.div_eq_of_lt_le hk
        rw [Nat.succ_mul]; omega
      rw [main_loop_done args w fuel _ hb, c1, c2, hb, hq, ← hin]
      rw [List.take_of_length_le (by omega), List.drop_of_length_le (by omega)]
      exact ⟨rfl, rfl, rfl⟩

/-! ## Shared lemmas: invariants of a run in an arbitrary world -/

theorem copy_loop_invariant (args : arguments) (w : World) (Inner : Run → Prop)
    (h_step : ∀ s, Inner s → s.busy = true → s.overflow = false → Inner (copy_step args w s))
    (fuel : Nat) (s : Run) (h : Inner s) : Inner (copy_loop args w fuel s) := by
  induction fuel generalizing s with
  | zero => exact h
  | succ fuel ih =>
    unfold copy_loop
    by_cases hc : (s.busy && !s.overflow) = true
    · rw [if_pos hc]
      simp only [Bool.and_eq_true, Bool.not_eq_true'] at hc
      exact ih _ (h_step s h hc.1 hc.2)
    · rw [if_neg hc]
      exact h

/-- A property established by bucket selection, kept by every iteration of the
copy loop and handed back by the close holds when the run ends. -/
theorem main_invariant (args : arguments) (w : World) (Outer Inner : Run → Prop)
    (h_select : ∀ s, Outer s → s.busy = true →
      Inner (select_bucket args w { s with bucket_size := 0, overflow := false }))
    (h_step : ∀ s, Inner s → s.busy = true → s.overflow = false → Inner (copy_step args w s))
    (h_close : ∀ s, Inner s → Outer (close_bucket s))
    (disk : Disk) (input : List Byte) (h_init : Outer (initial w disk input)) :
    Outer (main args w disk input) := by
  have hloop : ∀ fuel s, Outer s → Outer (main_loop args w fuel s) := by
    intro fuel
    induction fuel with
    | zero => intro s h; exact h
    | succ fuel ih =>
      intro s h
      unfold main_loop
      by_cases hb : s.busy = true
      · rw [if_pos hb]
        apply ih
        unfold cycle
        exact h_close _ (copy_loop_invariant args w Inner h_step _ _ (h_select s h hb))
      · rw [if_neg hb]
        exact h
  exact hloop _ _ h_init

/-! ## Shared lemmas: the run always ends -/

theorem copy_step_input (args : arguments) (w : World) (s : Run) :
    (copy_step args w s).input.length ≤ s.input.length ∧
    (s.busy = true → (copy_step args w s).busy = true →
      (copy_step args w s).input.length < s.input.length) ∧
    (s.busy = false → (copy_step args w s).busy = false) := by
  unfold copy_step
  cases hread : w.read s.clock with
  | error => simp
  | deliver want =>
    simp only
    generalize hdata : List.take (min (max want 1) (max_read_size args s.bucket_size)) s.input
      = data
    have hle : data.length ≤ s.input.length := by
      rw [← hdata, List.length_take]; omega
    by_cases h0 : data.length = 0
    · rw [if_pos h0]
      simp [h0]
    · rw [if_neg h0]
      split <;> split <;> simp only [List.length_drop] <;>
        refine ⟨by omega, ?_, ?_⟩ <;> intros <;> first | omega | simp_all

/-- The copy loop is left by its own condition, never for lack of fuel, and a
loop that leaves the run busy has consumed input. -/
theorem copy_loop_exits (args : arguments) (w : World) (fuel : Nat) (s : Run)
    (hfuel : s.input.length < fuel) :
    ((copy_loop args w fuel s).busy && !(copy_loop args w fuel s).overflow) = false ∧
    (copy_loop args w fuel s).input.length ≤ s.input.length ∧
    (s.overflow = false → (copy_loop args w fuel s).busy = true →
      (copy_loop args w fuel s).input.length < s.input.length) := by
  induction fuel generalizing s with
  | zero => omega
  | succ fuel ih =>
    unfold copy_loop
    by_cases hc : (s.busy && !s.overflow) = true
    · rw [if_pos hc]
      simp only [Bool.and_eq_true, Bool.not_eq_true'] at hc
      obtain ⟨s1, s2, s3⟩ := copy_step_input args w s
      by_cases hb : (copy_step args w s).busy = true
      · have hlt := s2 hc.1 hb
        obtain ⟨i1, i2, i3⟩ := ih (copy_step args w s) (by omega)
        exact ⟨i1, by omega, fun _ _ => by omega⟩
      · have hb2 : (copy_step args w s).busy = false := by simpa using hb
        rw [copy_loop_done args w fuel _ (by simp [hb2])]
        exact ⟨by simp [hb2], s1, fun _ h => absurd h hb⟩
    · rw [if_neg hc]
      refine ⟨by simpa using hc, le_refl _, ?_⟩
      intro hov hb
      simp [hov, hb] at hc

theorem backup_loop_busy_input (w : World) (i : Nat) (s : Run) :
    (backup_loop w i s).1.input = s.input ∧ (backup_loop w i s).1.overflow = s.overflow :=
  ⟨(backup_loop_spec w i s).1, (backup_loop_spec w i s).2.2.2.2.1⟩

theorem select_bucket_input (args : arguments) (w : World) (s : Run) :
    (select_bucket args w s).input = s.input ∧
    (select_bucket args w s).overflow = s.overflow := by
  obtain ⟨b1, b2⟩ := backup_loop_busy_input w args.backup_buckets s
  unfold select_bucket _backup_bucket
  by_cases h1 : reuse_condition args s.disk = true
  · by_cases h2 : w.ok s.clock = true
    · by_cases h3 : w.ok (s.clock + 1) = true
      · simp [h1, h2, h3]
      · simp [h1, h2, h3]
    · simp [h1, h2]
  · by_cases h2 : (backup_loop w args.backup_buckets s).2 = true
    · by_cases h3 : w.ok (backup_loop w args.backup_buckets s).1.clock = true
      · simp [h1, h2, h3, b1, b2]
      · simp [h1, h2, h3, b1, b2]
    · simp [h1, h2, b1, b2]

theorem cycle_consumes (args : arguments) (w : World) (s : Run)
    (hb : (cycle args w s).busy = true) : (cycle args w s).input.length < s.input.length := by
  obtain ⟨s1, s2⟩ := select_bucket_input args w { s with bucket_size := 0, overflow := false }
  obtain ⟨-, -, c3⟩ := copy_loop_exits args w (s.input.length + 1)
    (select_bucket args w { s with bucket_size := 0, overflow := false })
    (by rw [s1]; exact Nat.lt_succ_self _)
  obtain ⟨-, k2, k3, -, -, -⟩ := close_bucket_fields
    (copy_loop args w (s.input.length + 1)
      (select_bucket args w { s with bucket_size := 0, overflow := false }))
  rw [cycle_eq args w s (s.input.length + 1) (by rw [s1])] at hb ⊢
  rw [k3] at hb
  rw [k2]
  have := c3 s2 hb
  rw [s1] at this
  exact this

/-- In every world the outer loop is left: the fuel given to it is never the
reason the run stops. -/
theorem main_terminates (args : arguments) (w : World) (disk : Disk) (input : List Byte) :
    (main args w disk input).busy = false := by
  have hloop : ∀ fuel s, s.input.length < fuel → (main_loop args w fuel s).busy = false := by
    intro fuel
    induction fuel with
    | zero => intro s h; omega
    | succ fuel ih =>
      intro s h
      unfold main_loop
      by_cases hb : s.busy = true
      · rw [if_pos hb]
        by_cases hb2 : (cycle args w s).busy = true
        · have := cycle_consumes args w s hb2
          exact ih _ (by omega)
        · have hb3 : (cycle args w s).busy = false := by simpa using hb2
          rw [main_loop_done args w fuel _ hb3]
          exact hb3
      · rw [if_neg hb]
        simpa using hb
  exact hloop _ _ (by simp [initial])

/-! ## Shared lemmas: the events of a rotation -/

theorem backup_loop_trace (w : World) (i : Nat) (s : Run) :
    ∃ evs, (backup_loop w i s).1.trace = s.trace ++ evs ∧
      ((backup_loop w i s).2 = true → ∀ e ∈ evs, ∃ a b, e = Event.rename a b true) ∧
      ((backup_loop w i s).2 = false → ∃ done a b, evs = done ++ [Event.rename a b false] ∧
        ∀ e ∈ done, ∃ a b, e = Event.rename a b true) := by
  induction i generalizing s with
  | zero =>
    refine ⟨[], by simp [backup_loop], ?_, ?_⟩
    · intro _ e he; simp at he
    · intro h; simp [backup_loop] at h
  | succ i ih =>
    unfold backup_loop
    simp only [backup_src_eq]
    by_cases hreg : is_regular (s.disk i) = true
    · by_cases hok : w.ok s.clock = true
      · simp only [hreg, hok, if_true]
        obtain ⟨evs, h1, h2, h3⟩ := ih
          { s with disk := sys_rename s.disk i (i + 1), clock := s.clock + 1,
                   trace := s.trace ++ [Event.rename i (i + 1) true] }
        refine ⟨Event.rename i (i + 1) true :: evs, ?_, ?_, ?_⟩
        · rw [h1]; simp
        · intro hr e he
          rcases List.mem_cons.mp he with he | he
          · exact ⟨_, _, he⟩
          · exact h2 hr e he
        · intro hr
          obtain ⟨done, a, b, hd1, hd2⟩ := h3 hr
          refine ⟨Event.rename i (i + 1) true :: done, a, b, by rw [hd1]; simp, ?_⟩
          intro e he
          rcases List.mem_cons.mp he with he | he
          · exact ⟨_, _, he⟩
          · exact hd2 e he
      · simp only [hreg, hok, if_true, Bool.false_eq_true, if_false]
        refine ⟨[Event.rename i (i + 1) false], rfl, ?_, ?_⟩
        · intro h; simp at h
        · intro _
          exact ⟨[], _, _, rfl, by simp⟩
    · simp only [hreg, Bool.false_eq_true, if_false]
      exact ih s

/-! ## Shared lemmas: the counter stays within the threshold -/

theorem good_read (args : arguments) (b pending : Nat) (result : Option Nat)
    (hT : args.overflow_bytesize < SIZE_MOD)
    (hb : 0 < args.overflow_bytesize → b < args.overflow_bytesize)
    (hres : result = some 0 → pending = 0) :
    Good args (Event.read b (max_read_size args b) pending result) := by
  have hbuf := buffer_size_pos args
  by_cases h0 : 0 < args.overflow_bytesize
  · have hb2 := hb h0
    rw [max_read_size_bounded args b h0 hT (le_of_lt hb2)]
    refine ⟨(max_read_size_bounded args b h0 hT (le_of_lt hb2)).symm, by omega,
      Nat.min_le_right _ _, hres, fun _ => ⟨hb2, ?_, rfl⟩⟩
    exact size_sub_eq _ _ hT (le_of_lt hb2)
  · have h1 : args.overflow_bytesize = 0 := by omega
    rw [max_read_size_unbounded args b h1]
    exact ⟨(max_read_size_unbounded args b h1).symm, hbuf, le_refl _, hres,
      fun h => absurd h h0⟩

theorem max_read_size_pos (args : arguments) (b : Nat)
    (hT : args.overflow_bytesize < SIZE_MOD)
    (hb : 0 < args.overflow_bytesize → b < args.overflow_bytesize) :
    1 ≤ max_read_size args b ∧
    (0 < args.overflow_bytesize → max_read_size args b ≤ args.overflow_bytesize - b) := by
  have hbuf := buffer_size_pos args
  by_cases h0 : 0 < args.overflow_bytesize
  · have hb2 := hb h0
    rw [max_read_size_bounded args b h0 hT (le_of_lt hb2)]
    exact ⟨by omega, fun _ => Nat.min_le_left _ _⟩
  · have h1 : args.overflow_bytesize = 0 := by omega
    rw [max_read_size_unbounded args b h1]
    exact ⟨hbuf, fun h => absurd h h0⟩

theorem good_append (args : arguments) (tr evs : List Event)
    (h1 : ∀ e ∈ tr, Good args e) (h2 : ∀ e ∈ evs, Good args e) :
    ∀ e ∈ tr ++ evs, Good args e := by
  intro e he
  rcases List.mem_append.mp he with h | h
  · exact h1 e h
  · exact h2 e h

theorem sys_write_regular (d : Disk) (data c : List Byte)
    (h : sys_write d data 0 = some (Node.regular c)) :
    ∃ c0, d 0 = some (Node.regular c0) ∧ c = c0 ++ data := by
  unfold sys_write at h
  simp only [if_true] at h
  cases hd : d 0 with
  | none => rw [hd] at h; simp at h
  | some n =>
    cases n with
    | regular c0 =>
      rw [hd] at h
      simp only [Option.some.injEq, Node.regular.injEq] at h
      exact ⟨c0, rfl, h.symm⟩
    | other => rw [hd] at h; simp at h

theorem within_copy_step (args : arguments) (w : World)
    (hT : args.overflow_bytesize < SIZE_MOD) (s : Run) (h : Within args s)
    (hbusy : s.busy = true) (hov : s.overflow = false) : Within args (copy_step args w s) := by
  obtain ⟨hgood, -, hpos⟩ := h
  have hb : 0 < args.overflow_bytesize → s.bucket_size < args.overflow_bytesize :=
    fun h0 => (hpos h0).1 hbusy hov
  obtain ⟨hreq1, hreq2⟩ := max_read_size_pos args s.bucket_size hT hb
  unfold copy_step
  cases hread : w.read s.clock with
  | error =>
    refine ⟨?_, ?_, ?_⟩
    · exact good_append args _ _ hgood (by
        intro e he
        rw [List.mem_singleton.mp he]
        exact good_read args _ _ _ hT hb (by simp))
    · intro h; simp [hov] at h
    · intro h0
      obtain ⟨-, -, -, p4⟩ := hpos h0
      exact ⟨by simp, by simp [hov], by simp, p4⟩
  | deliver want =>
    simp only
    generalize hdata : List.take (min (max want 1) (max_read_size args s.bucket_size)) s.input
      = data
    have hlen : data.length = min (min (max want 1) (max_read_size args s.bucket_size))
        s.input.length := by
      rw [← hdata, List.length_take]
    have hgr : Good args (Event.read s.bucket_size (max_read_size args s.bucket_size)
        s.input.length (some data.length)) := by
      apply good_read args _ _ _ hT hb
      intro hz
      simp only [Option.some.injEq] at hz
      omega
    have hg1 := good_append args _ _ hgood (by
      intro e he
      rw [List.mem_singleton.mp he]
      exact hgr)
    by_cases hz : data.length = 0
    · rw [if_pos hz]
      refine ⟨hg1, ?_, ?_⟩
      · intro h; simp [hov] at h
      · intro h0
        obtain ⟨-, -, -, p4⟩ := hpos h0
        exact ⟨by simp, by simp [hov], by simp, p4⟩
    · rw [if_neg hz]
      have hg2 : ∀ e ∈ (if args.stdout = true then
          ({ s with input := s.input.drop data.length, clock := s.clock + 1,
                    trace := (s.trace ++ [Event.read s.bucket_size
                      (max_read_size args s.bucket_size) s.input.length (some data.length)])
                      ++ [Event.echo (w.echo s.clock)] } : Run)
          else { s with input := s.input.drop data.length, clock := s.clock + 1,
                        trace := s.trace ++ [Event.read s.bucket_size
                          (max_read_size args s.bucket_size) s.input.length
                          (some data.length)] }).trace, Good args e := by
        split
        · exact good_append args _ _ hg1 (by
            intro e he
            rw [List.mem_singleton.mp he]
            trivial)
        · exact hg1
      have hfield : ∀ (s2 : Run), s2 = (if args.stdout = true then
          ({ s with input := s.input.drop data.length, clock := s.clock + 1,
                    trace := (s.trace ++ [Event.read s.bucket_size
                      (max_read_size args s.bucket_size) s.input.length (some data.length)])
                      ++ [Event.echo (w.echo s.clock)] } : Run)
          else { s with input := s.input.drop data.length, clock := s.clock + 1,
                        trace := s.trace ++ [Event.read s.bucket_size
                          (max_read_size args s.bucket_size) s.input.length
                          (some data.length)] }) →
          s2.disk = s.disk ∧ s2.busy = s.busy ∧ s2.ofd = s.ofd ∧
          s2.bucket_size = s.bucket_size ∧ s2.overflow = s.overflow := by
        intro s2 hs2
        rw [hs2]
        split <;> exact ⟨rfl, rfl, rfl, rfl, rfl⟩
      generalize hs2 : (if args.stdout = true then
          ({ s with input := s.input.drop data.length, clock := s.clock + 1,
                    trace := (s.trace ++ [Event.read s.bucket_size
                      (max_read_size args s.bucket_size) s.input.length (some data.length)])
                      ++ [Event.echo (w.echo s.clock)] } : Run)
          else { s with input := s.input.drop data.length, clock := s.clock + 1,
                        trace := s.trace ++ [Event.read s.bucket_size
                          (max_read_size args s.bucket_size) s.input.length
                          (some data.length)] }) = s2 at hg2
      obtain ⟨f1, f2, f3, f4, f5⟩ := hfield s2 hs2.symm
      cases hwrite : w.write s2.clock with
      | full =>
        simp only
        rw [f1, f4]
        refine ⟨?_, ?_, ?_⟩
        · apply good_append args _ _ hg2
          intro e he
          simp only [List.mem_cons, List.mem_singleton, List.not_mem_nil, or_false] at he
          rcases he with he | he
          · rw [he]
            intro h0 c hc
            obtain ⟨p1, p2, p3, p4⟩ := hpos h0
            obtain ⟨c0, hc0, hcc⟩ := sys_write_regular _ _ _ hc
            have := p3 hbusy c0 hc0
            have := hreq2 h0
            rw [hcc, List.length_append]
            omega
          · rw [he]
            intro h0
            have := hb h0
            have := hreq2 h0
            rw [size_add_eq _ _ (by omega)]
            refine ⟨by omega, ?_⟩
            rw [decide_eq_true_iff]
            omega
        · intro _
          rw [f2]; exact hbusy
        · intro h0
          have hb0 := hb h0
          have hr0 := hreq2 h0
          obtain ⟨p1, p2, p3, p4⟩ := hpos h0
          simp only
          rw [size_add_eq _ _ (by omega)]
          refine ⟨?_, ?_, ?_, ?_⟩
          · intro _ hnov
            rw [decide_eq_false_iff_not] at hnov
            omega
          · intro hov2
            rw [decide_eq_true_iff] at hov2
            omega
          · intro _ c hc
            obtain ⟨c0, hc0, hcc⟩ := sys_write_regular _ _ _ hc
            have := p3 hbusy c0 hc0
            rw [hcc, List.length_append]
            omega
          · intro _ c hc
            obtain ⟨c0, hc0, hcc⟩ := sys_write_regular _ _ _ hc
            have := p3 hbusy c0 hc0
            rw [hcc, List.length_append]
            omega
      | short k =>
        simp only
        rw [f1]
        have hshort : ∀ c, sys_write s.disk (List.take (min k (data.length - 1)) data) 0
            = some (Node.regular c) → 0 < args.overflow_bytesize →
            c.length ≤ args.overflow_bytesize := by
          intro c hc h0
          obtain ⟨p1, p2, p3, p4⟩ := hpos h0
          obtain ⟨c0, hc0, hcc⟩ := sys_write_regular _ _ _ hc
          have := p3 hbusy c0 hc0
          have := hb h0
          have := hreq2 h0
          rw [hcc, List.length_append, List.length_take]
          omega
        refine ⟨?_, ?_, ?_⟩
        · apply good_append args _ _ hg2
          intro e he
          rw [List.mem_singleton.mp he]
          intro h0 c hc
          exact hshort c hc h0
        · intro h; rw [f5, hov] at h; exact absurd h (by simp)
        · intro h0
          refine ⟨by simp, ?_, by simp, ?_⟩
          · intro h; rw [f5, hov] at h; exact absurd h (by simp)
          · intro _ c hc
            exact hshort c hc h0
      | error =>
        simp only
        have herr : ∀ c, s2.disk 0 = some (Node.regular c) → 0 < args.overflow_bytesize →
            c.length ≤ args.overflow_bytesize := by
          intro c hc h0
          obtain ⟨p1, p2, p3, p4⟩ := hpos h0
          rw [f1] at hc
          have := p3 hbusy c hc
          have := hb h0
          omega
        refine ⟨?_, ?_, ?_⟩
        · apply good_append args _ _ hg2
          intro e he
          rw [List.mem_singleton.mp he]
          intro h0 c hc
          exact herr c hc h0
        · intro h; rw [f5, hov] at h; exact absurd h (by simp)
        · intro h0
          refine ⟨by simp, ?_, by simp, ?_⟩
          · intro h; rw [f5, hov] at h; exact absurd h (by simp)
          · intro _ c hc
            exact herr c hc h0

theorem reuse_condition_iff (args : arguments) (d : Disk) :
    reuse_condition args d = true ↔
      (args.new_bucket = false ∧ ∃ c, d 0 = some (Node.regular c) ∧
        (args.overflow_bytesize = 0 ∨ c.length < args.overflow_bytesize)) := by
  unfold reuse_condition
  cases hd : d 0 with
  | none => simp [is_regular]
  | some n =>
    cases n with
    | regular c => simp [is_regular, st_size]
    | other => simp [is_regular]

theorem sys_open_trunc_regular (d : Disk) (c : List Byte)
    (h : sys_open_trunc d 0 = some (Node.regular c)) : c = [] := by
  unfold sys_open_trunc at h
  simp only [if_true] at h
  split at h
  · simp at h
  · simp only [Option.some.injEq, Node.regular.injEq] at h
    exact h.symm

theorem within_select (args : arguments) (w : World) (s : Run) (h : Between args s)
    (_hbusy : s.busy = true) :
    Within args (select_bucket args w { s with bucket_size := 0, overflow := false }) := by
  obtain ⟨hgood, hofd⟩ := h
  unfold select_bucket
  by_cases hre : reuse_condition args s.disk = true
  · obtain ⟨-, c, hc, hsize⟩ := (reuse_condition_iff args s.disk).mp hre
    have hst : st_size (s.disk 0) = c.length := by rw [hc]; rfl
    simp only [hre, if_true]
    by_cases h1 : w.ok s.clock = true
    · by_cases h2 : w.ok (s.clock + 1) = true
      · simp only [h1, h2, if_true]
        refine ⟨?_, by simp, ?_⟩
        · apply good_append args _ _ hgood
          intro e he
          simp only [List.mem_cons, List.mem_singleton, List.not_mem_nil, or_false] at he
          rcases he with he | he
          · rw [he]; trivial
          · rw [he, hst]
            intro h0
            rcases hsize with hz | hlt
            · omega
            · exact hlt
        · intro h0
          have hlt : c.length < args.overflow_bytesize := by
            rcases hsize with hz | hlt
            · omega
            · exact hlt
          simp only [hst]
          refine ⟨fun _ _ => hlt, by simp, ?_, ?_⟩
          · intro _ c2 hc2
            rw [hc] at hc2
            simp only [Option.some.injEq, Node.regular.injEq] at hc2
            rw [hc2]
          · intro _ c2 hc2
            rw [hc] at hc2
            simp only [Option.some.injEq, Node.regular.injEq] at hc2
            rw [← hc2]
            exact le_of_lt hlt
      · simp only [h1, h2, if_true, Bool.false_eq_true, if_false]
        refine ⟨?_, by simp, ?_⟩
        · apply good_append args _ _ hgood
          intro e he
          simp only [List.mem_cons, List.mem_singleton, List.not_mem_nil, or_false] at he
          rcases he with he | he <;> rw [he] <;> trivial
        · intro h0
          have hlt : c.length < args.overflow_bytesize := by
            rcases hsize with hz | hlt
            · omega
            · exact hlt
          refine ⟨by simp, by simp, by simp, ?_⟩
          intro _ c2 hc2
          rw [hc] at hc2
          simp only [Option.some.injEq, Node.regular.injEq] at hc2
          rw [← hc2]
          exact le_of_lt hlt
    · simp only [h1, Bool.false_eq_true, if_false]
      refine ⟨?_, by simp, ?_⟩
      · apply good_append args _ _ hgood
        intro e he
        rw [List.mem_singleton.mp he]
        trivial
      · intro _
        exact ⟨by simp, by simp, by simp, by simp⟩
  · simp only [hre, Bool.false_eq_true, if_false, _backup_bucket]
    obtain ⟨b1, b2, b3, b4, b5, -⟩ := backup_loop_spec w args.backup_buckets
      { s with bucket_size := 0, overflow := false }
    obtain ⟨evs, t1, t2, t3⟩ := backup_loop_trace w args.backup_buckets
      { s with bucket_size := 0, overflow := false }
    have hevs : ∀ e ∈ evs, Good args e := by
      intro e he
      by_cases hr : (backup_loop w args.backup_buckets
          { s with bucket_size := 0, overflow := false }).2 = true
      · obtain ⟨a, b, hab⟩ := t2 hr e he
        rw [hab]; trivial
      · obtain ⟨done, a, b, hd1, hd2⟩ := t3 (by simpa using hr)
        rw [hd1] at he
        rcases List.mem_append.mp he with he | he
        · obtain ⟨a2, b2, hab⟩ := hd2 e he
          rw [hab]; trivial
        · rw [List.mem_singleton.mp he]; trivial
    have hg2 : ∀ e ∈ (backup_loop w args.backup_buckets
        { s with bucket_size := 0, overflow := false }).1.trace, Good args e := by
      rw [t1]
      exact good_append args _ _ hgood hevs
    by_cases hr : (backup_loop w args.backup_buckets
        { s with bucket_size := 0, overflow := false }).2 = true
    · by_cases hok : w.ok (backup_loop w args.backup_buckets
          { s with bucket_size := 0, overflow := false }).1.clock = true
      · simp only [hr, hok, if_true]
        refine ⟨?_, ?_, ?_⟩
        · apply good_append args _ _ hg2
          intro e he
          rw [List.mem_singleton.mp he]
          trivial
        · intro h; rw [b5] at h; simp at h
        · intro h0
          simp only [b4, b5]
          refine ⟨fun _ _ => h0, by simp, ?_, ?_⟩
          · intro _ c hc
            rw [sys_open_trunc_regular _ c hc]
            rfl
          · intro _ c hc
            rw [sys_open_trunc_regular _ c hc]
            simp
      · simp only [hr, hok, if_true, Bool.false_eq_true, if_false]
        refine ⟨?_, ?_, ?_⟩
        · apply good_append args _ _ hg2
          intro e he
          rw [List.mem_singleton.mp he]
          trivial
        · intro h; rw [b5] at h; simp at h
        · intro _
          refine ⟨by simp, ?_, by simp, by simp⟩
          intro h; rw [b5] at h; simp at h
    · simp only [hr, Bool.false_eq_true, if_false]
      refine ⟨hg2, ?_, ?_⟩
      · intro h; rw [b5] at h; simp at h
      · intro _
        refine ⟨by simp, ?_, by simp, ?_⟩
        · intro h; rw [b5] at h; simp at h
        · intro h
          rw [b3] at h
          simp only at h
          rw [hofd] at h
          simp at h

theorem between_close (args : arguments) (s : Run) (h : Within args s) :
    Between args (close_bucket s) := by
  obtain ⟨hgood, hovb, hpos⟩ := h
  unfold close_bucket
  by_cases hofd : s.ofd = true
  · simp only [hofd, if_true]
    refine ⟨?_, rfl⟩
    apply good_append args _ _ hgood
    intro e he
    rw [List.mem_singleton.mp he]
    intro h0
    obtain ⟨-, p2, p3, p4⟩ := hpos h0
    refine ⟨p2, ?_⟩
    intro c hc
    refine ⟨p4 hofd c hc, ?_⟩
    intro hov
    rw [p3 (hovb hov) c hc, p2 hov]
  · simp only [hofd, Bool.false_eq_true, if_false]
    exact ⟨hgood, by simpa using hofd⟩

/-- Every event of every run is `Good`. -/
theorem main_trace_good (args : arguments) (w : World) (disk : Disk) (input : List Byte)
    (hT : args.overflow_bytesize < SIZE_MOD) :
    ∀ e ∈ (main args w disk input).trace, Good args e := by
  have h := main_invariant args w (Between args) (Within args)
    (within_select args w) (within_copy_step args w hT) (between_close args) disk input
    (by
      refine ⟨?_, rfl⟩
      intro e he
      simp only [initial, List.mem_singleton] at he
      rw [he]
      trivial)
  exact h.1

/-! ## Shared lemmas: nothing happens after the event that ends the run -/

theorem clean_append (a b : List Event) (ha : clean a) (hb : clean b) : clean (a ++ b) := by
  intro e he
  rcases List.mem_append.mp he with h | h
  · exact ha e h
  · exact hb e h

theorem clean_single (e : Event) (h : fatal e = false) : clean [e] := by
  intro x hx
  rw [List.mem_singleton.mp hx]
  exact h

theorem ended_of_clean (a b : List Event) (e : Event) (ha : clean a) (hb : clean b)
    (he : fatal e = true) : ended (a ++ (b ++ [e])) :=
  ⟨a ++ b, e, by simp, he, clean_append a b ha hb⟩

theorem running_copy_step (args : arguments) (w : World) (s : Run) (h : Running s)
    (hbusy : s.busy = true) (_hov : s.overflow = false) : Running (copy_step args w s) := by
  have hclean := h.1 hbusy
  unfold copy_step
  cases hread : w.read s.clock with
  | error =>
    refine ⟨by simp, fun _ => ?_⟩
    exact ended_of_clean _ [] _ hclean (by intro e he; simp at he) rfl
  | deliver want =>
    simp only
    generalize hdata : List.take (min (max want 1) (max_read_size args s.bucket_size)) s.input
      = data
    by_cases hz : data.length = 0
    · rw [if_pos hz]
      refine ⟨by simp, fun _ => ?_⟩
      exact ended_of_clean _ [] _ hclean (by intro e he; simp at he) (by simp [fatal, hz])
    · rw [if_neg hz]
      have hrd : fatal (Event.read s.bucket_size (max_read_size args s.bucket_size)
          s.input.length (some data.length)) = false := by
        simp [fatal, hz]
      by_cases hout : args.stdout = true
      · simp only [hout, if_true]
        have hpre : clean [Event.read s.bucket_size (max_read_size args s.bucket_size)
            s.input.length (some data.length), Event.echo (w.echo s.clock)] := by
          intro e he
          simp only [List.mem_cons, List.mem_singleton, List.not_mem_nil, or_false] at he
          rcases he with he | he
          · rw [he]; exact hrd
          · rw [he]; rfl
        cases hwrite : w.write (s.clock + 1) with
        | full =>
          simp only
          refine ⟨fun _ => ?_, fun hb => ?_⟩
          · simp only [List.append_assoc]
            refine clean_append _ _ hclean ?_
            intro e he
            simp only [List.singleton_append, List.cons_append, List.nil_append, List.mem_cons,
              List.mem_singleton, List.not_mem_nil, or_false] at he
            rcases he with he | he | he | he <;> rw [he] <;> first | exact hrd | rfl
          · simp only at hb
            rw [hbusy] at hb
            exact absurd hb (by simp)
        | short k =>
          simp only
          refine ⟨by simp, fun _ => ?_⟩
          simp only [List.append_assoc]
          exact ended_of_clean _ _ _ hclean hpre (by simp [fatal])
        | error =>
          simp only
          refine ⟨by simp, fun _ => ?_⟩
          simp only [List.append_assoc]
          exact ended_of_clean _ _ _ hclean hpre (by simp [fatal])
      · simp only [hout, Bool.false_eq_true, if_false]
        have hpre : clean [Event.read s.bucket_size (max_read_size args s.bucket_size)
            s.input.length (some data.length)] := clean_single _ hrd
        cases hwrite : w.write (s.clock + 1) with
        | full =>
          simp only
          refine ⟨fun _ => ?_, fun hb => ?_⟩
          · simp only [List.append_assoc]
            refine clean_append _ _ hclean ?_
            intro e he
            simp only [List.singleton_append, List.cons_append, List.nil_append, List.mem_cons,
              List.mem_singleton, List.not_mem_nil, or_false] at he
            rcases he with he | he | he <;> rw [he] <;> first | exact hrd | rfl
          · simp only at hb
            rw [hbusy] at hb
            exact absurd hb (by simp)
        | short k =>
          simp only
          refine ⟨by simp, fun _ => ?_⟩
          simp only [List.append_assoc]
          exact ended_of_clean _ _ _ hclean hpre (by simp [fatal])
        | error =>
          simp only
          refine ⟨by simp, fun _ => ?_⟩
          simp only [List.append_assoc]
          exact ended_of_clean _ _ _ hclean hpre (by simp [fatal])

theorem running_select (args : arguments) (w : World) (s : Run) (h : Settled s)
    (hbusy : s.busy = true) :
    Running (select_bucket args w { s with bucket_size := 0, overflow := false }) := by
  have hclean := h.1 hbusy
  unfold select_bucket
  by_cases hre : reuse_condition args s.disk = true
  · simp only [hre, if_true]
    by_cases h1 : w.ok s.clock = true
    · by_cases h2 : w.ok (s.clock + 1) = true
      · simp only [h1, h2, if_true]
        refine ⟨fun _ => ?_, fun hb => ?_⟩
        · refine clean_append _ _ hclean ?_
          intro e he
          simp only [List.mem_cons, List.mem_singleton, List.not_mem_nil, or_false] at he
          rcases he with he | he <;> rw [he] <;> rfl
        · simp only at hb
          rw [hbusy] at hb
          exact absurd hb (by simp)
      · simp only [h1, h2, if_true, Bool.false_eq_true, if_false]
        refine ⟨by simp, fun _ => ?_⟩
        exact ended_of_clean _ [Event.open_existing true] _ hclean (clean_single _ rfl) rfl
    · simp only [h1, Bool.false_eq_true, if_false]
      refine ⟨by simp, fun _ => ?_⟩
      exact ended_of_clean _ [] _ hclean (by intro e he; simp at he) rfl
  · simp only [hre, Bool.false_eq_true, if_false, _backup_bucket]
    obtain ⟨-, b2, -, -, -, -⟩ := backup_loop_spec w args.backup_buckets
      { s with bucket_size := 0, overflow := false }
    obtain ⟨evs, t1, t2, t3⟩ := backup_loop_trace w args.backup_buckets
      { s with bucket_size := 0, overflow := false }
    by_cases hr : (backup_loop w args.backup_buckets
        { s with bucket_size := 0, overflow := false }).2 = true
    · have hevs : clean evs := by
        intro e he
        obtain ⟨a, b, hab⟩ := t2 hr e he
        rw [hab]; rfl
      by_cases hok : w.ok (backup_loop w args.backup_buckets
          { s with bucket_size := 0, overflow := false }).1.clock = true
      · simp only [hr, hok, if_true]
        refine ⟨fun _ => ?_, fun hb => ?_⟩
        · rw [t1]
          exact clean_append _ _ (clean_append _ _ hclean hevs) (clean_single _ rfl)
        · simp only at hb
          rw [b2] at hb
          simp only at hb
          rw [hbusy] at hb
          exact absurd hb (by simp)
      · simp only [hr, hok, if_true, Bool.false_eq_true, if_false]
        refine ⟨by simp, fun _ => ?_⟩
        rw [t1, List.append_assoc]
        exact ended_of_clean _ _ _ hclean hevs rfl
    · simp only [hr, Bool.false_eq_true, if_false]
      obtain ⟨done, a, b, hd1, hd2⟩ := t3 (by simpa using hr)
      have hdone : clean done := by
        intro e he
        obtain ⟨a2, b2, hab⟩ := hd2 e he
        rw [hab]; rfl
      refine ⟨by simp, fun _ => ?_⟩
      rw [t1, hd1]
      exact ended_of_clean _ _ _ hclean hdone rfl

theorem settled_close (s : Run) (h : Running s) : Settled (close_bucket s) := by
  unfold close_bucket
  by_cases hofd : s.ofd = true
  · simp only [hofd, if_true]
    refine ⟨fun hb => ?_, fun hb => ?_⟩
    · exact clean_append _ _ (h.1 hb) (clean_single _ rfl)
    · obtain ⟨before, e, h1, h2, h3⟩ := h.2 hb
      right
      refine ⟨before, e, Event.close s.overflow s.bucket_size (s.disk 0), ?_, h2, rfl, h3⟩
      simp only
      rw [h1]
      simp
  · simp only [hofd, Bool.false_eq_true, if_false]
    exact ⟨h.1, fun hb => Or.inl (h.2 hb)⟩

theorem main_settled (args : arguments) (w : World) (disk : Disk) (input : List Byte) :
    Settled (main args w disk input) := by
  apply main_invariant args w Settled Running (running_select args w)
    (running_copy_step args w) settled_close
  unfold initial
  by_cases h0 : w.ok 0 = true
  · refine ⟨fun _ => ?_, fun hb => ?_⟩
    · exact clean_single _ (by simp [fatal, h0])
    · simp only at hb
      rw [h0] at hb
      exact absurd hb (by simp)
  · refine ⟨fun hb => absurd hb h0, fun _ => Or.inl ?_⟩
    exact ⟨[], _, rfl, by simpa [fatal] using h0, by intro e he; simp at he⟩

/-- In a list that starts with events that do not end a run, an event that
does lies in the rest. -/
theorem split_clean (P tail : List Event) (hP : clean P) (before : List Event) (e : Event)
    (after : List Event) (h : P ++ tail = before ++ e :: after) (he : fatal e = true) :
    ∃ mid, before = P ++ mid ∧ tail = mid ++ e :: after := by
  induction P generalizing before with
  | nil => exact ⟨before, by simp, by simpa using h⟩
  | cons a P ih =>
    cases before with
    | nil =>
      simp only [List.cons_append, List.nil_append, List.cons.injEq] at h
      have := hP a (List.mem_cons_self _ _)
      rw [h.1, he] at this
      exact absurd this (by simp)
    | cons b before =>
      simp only [List.cons_append, List.cons.injEq] at h
      obtain ⟨mid, h1, h2⟩ := ih (fun x hx => hP x (List.mem_cons_of_mem _ hx)) before h.2
      exact ⟨mid, by rw [h.1, h1]; simp, h2⟩


/-! ## Shared lemmas: rotation over names and inodes -/

theorem posix_view_rename (fs : Posix.FS) (src dest : Nat)
    (h : ¬ Posix.linked fs src dest) :
    (Posix.sys_rename fs src dest).view = sys_rename fs.view src dest ∧
    (Posix.sys_rename fs src dest).data = fs.data := by
  have hmoved : ∀ (fs2 : Posix.FS),
      fs2 = { dir := fun k => if k = dest then (fs.dir src) else
                                if k = src then none else (fs.dir k),
              data := fs.data } →
      fs2.view = sys_rename fs.view src dest ∧ fs2.data = fs.data := by
    intro fs2 h2
    subst h2
    refine ⟨?_, rfl⟩
    funext k
    unfold Posix.FS.view sys_rename
    by_cases h1 : k = dest
    · simp [h1]
    · by_cases h3 : k = src
      · subst h3
        simp [h1]
      · simp [h1, h3]
  unfold Posix.sys_rename
  split
  · rename_i a b ha hb
    by_cases hab : a = b
    · exact absurd ⟨a, ha, by rw [hb, hab]⟩ h
    · rw [if_neg hab]
      exact hmoved _ rfl
  · exact hmoved _ rfl

theorem posix_is_regular_view (fs : Posix.FS) (k : Nat) :
    is_regular (fs.view k) = true ↔ ∃ ino, fs.dir k = some (Posix.Entry.file ino) := by
  unfold Posix.FS.view
  cases hk : fs.dir k with
  | none => simp [is_regular]
  | some e =>
    cases e with
    | file ino => simp [is_regular]
    | other => simp [is_regular]

/-- What the rotation loop leaves alone, and what the names show when it
returns `TRUE` and the two topmost names it handles are not links to one
file. -/
theorem posix_backup_loop_spec (h : Posix.Host) (i : Nat) (s : Posix.Run) :
    (Posix.backup_loop h i s).1.input = s.input ∧
    (Posix.backup_loop h i s).1.busy = s.busy ∧
    (Posix.backup_loop h i s).1.killed = s.killed ∧
    (Posix.backup_loop h i s).1.ofd = s.ofd ∧
    (Posix.backup_loop h i s).1.bucket_size = s.bucket_size ∧
    (Posix.backup_loop h i s).1.overflow = s.overflow ∧
    (Posix.backup_loop h i s).1.stdout = s.stdout ∧
    (Posix.backup_loop h i s).1.fs.data = s.fs.data ∧
    ((Posix.backup_loop h i s).2 = true → (1 ≤ i → ¬ Posix.linked s.fs (i - 1) i) →
      (Posix.backup_loop h i s).1.fs.view = rotated i s.fs.view) := by
  induction i generalizing s with
  | zero =>
    refine ⟨rfl, rfl, rfl, rfl, rfl, rfl, rfl, rfl, ?_⟩
    intro _ _
    funext k
    have h1 : ¬ (1 ≤ k ∧ k ≤ 0) := by omega
    have h2 : ¬ (k = 0 ∧ 1 ≤ 0 ∧ is_regular (s.fs.view 0) = true) := by omega
    simp only [Posix.backup_loop, rotated, if_neg h1, if_neg h2]
  | succ i ih =>
    unfold Posix.backup_loop
    simp only [backup_src_eq]
    by_cases hreg : is_regular (s.fs.view i) = true
    · by_cases hok : h.ok s.clock = true
      · simp only [hreg, hok, if_true]
        obtain ⟨h1, h2, h3, h4, h5, h6, h7, h8, h9⟩ := ih
          { s with fs := Posix.sys_rename s.fs i (i + 1), clock := s.clock + 1 }
        refine ⟨h1, h2, h3, h4, h5, h6, h7, ?_, ?_⟩
        · rw [h8]
          show (Posix.sys_rename s.fs i (i + 1)).data = s.fs.data
          unfold Posix.sys_rename
          split
          · split <;> rfl
          · rfl
        · intro hr hpre
          have hnl : ¬ Posix.linked s.fs i (i + 1) := by
            have := hpre (by omega)
            simpa using this
          obtain ⟨v1, v2⟩ := posix_view_rename s.fs i (i + 1) hnl
          have hnext : 1 ≤ i → ¬ Posix.linked (Posix.sys_rename s.fs i (i + 1)) (i - 1) i := by
            intro _ hl
            obtain ⟨ino, -, hb⟩ := hl
            have hv : is_regular ((Posix.sys_rename s.fs i (i + 1)).view i) = true :=
              (posix_is_regular_view _ i).mpr ⟨ino, hb⟩
            rw [v1] at hv
            simp [sys_rename, is_regular] at hv
          rw [h9 hr hnext]
          show rotated i (Posix.sys_rename s.fs i (i + 1)).view = rotated (i + 1) s.fs.view
          rw [v1]
          exact rotated_succ_of_regular i s.fs.view hreg
      · simp [hreg, hok]
    · simp only [hreg]
      obtain ⟨h1, h2, h3, h4, h5, h6, h7, h8, h9⟩ := ih s
      refine ⟨h1, h2, h3, h4, h5, h6, h7, h8, ?_⟩
      intro hr _
      simp only [Bool.false_eq_true, if_false] at hr ⊢
      have hnext : 1 ≤ i → ¬ Posix.linked s.fs (i - 1) i := by
        intro _ hl
        obtain ⟨ino, -, hb⟩ := hl
        exact hreg ((posix_is_regular_view _ i).mpr ⟨ino, hb⟩)
      rw [h9 hr hnext]
      exact rotated_succ_of_not_regular i s.fs.view (by simpa using hreg)

/-! ## Shared lemmas: standard output on a file outside the chain -/

theorem reliable_calm (want : Nat → Nat) : (calm want).reliable := by
  intro t
  simp [calm]

theorem initial_busy (w : World) (hw : w.reliable) (disk : Disk) (input : List Byte) :
    (initial w disk input).busy = true := (hw 0).1

/-- C1. Final on-disk layout: with a positive threshold `T`, any backup depth
`N`, either value of `new_bucket`, no file on disk at the start and no I/O
failure, however the reads split the input, the run ends (the outer loop has
left, all input consumed) with `dest_filename` holding input bytes `[q * T, L)`
for `q = L / T` (so `L % T` bytes), `dest_filename.i` holding bytes
`[(q - i) * T, (q - i + 1) * T)` for `1 ≤ i ≤ min q N`, and no
`dest_filename.j` for `j > min q N`. -/
theorem final_layout (args : arguments) (w : World) (input : List Byte)
    (hw : w.reliable) (h0 : 0 < args.overflow_bytesize)
    (hT : args.overflow_bytesize < SIZE_MOD) :
    (main args w emptyDisk input).busy = false ∧
    (main args w emptyDisk input).input = [] ∧
    (main args w emptyDisk input).disk 0
      = some (Node.regular
          (input.drop (input.length / args.overflow_bytesize * args.overflow_bytesize))) ∧
    (input.drop (input.length / args.overflow_bytesize * args.overflow_bytesize)).length
      = input.length % args.overflow_bytesize ∧
    (∀ i, 1 ≤ i → i ≤ min (input.length / args.overflow_bytesize) args.backup_buckets →
      (main args w emptyDisk input).disk i
        = some (Node.regular
            ((input.drop ((input.length / args.overflow_bytesize - i)
              * args.overflow_bytesize)).take args.overflow_bytesize)) ∧
      ((input.drop ((input.length / args.overflow_bytesize - i)
          * args.overflow_bytesize)).take args.overflow_bytesize).length
        = args.overflow_bytesize) ∧
    (∀ j, min (input.length / args.overflow_bytesize) args.backup_buckets < j →
      (main args w emptyDisk input).disk j = none) := by
  obtain ⟨m1, m2, m3⟩ := main_loop_bounded args w hw h0 hT input (input.length + 1) 0
    (initial w emptyDisk input) (initial_busy w hw _ _) (reuse_condition_emptyDisk args)
    (rotate_emptyDisk input _ _) (by simp [initial]) (by simp) (by simp [initial])
  unfold main
  rw [m1, m2, m3]
  have hdm := Nat.div_add_mod input.length args.overflow_bytesize
  have hmul : input.length / args.overflow_bytesize * args.overflow_bytesize
      = args.overflow_bytesize * (input.length / args.overflow_bytesize) := Nat.mul_comm _ _
  refine ⟨rfl, rfl, ?_, ?_, ?_, ?_⟩
  · simp [layout]
  · rw [List.length_drop]
    omega
  · intro i h1 h2
    have hi : i ≠ 0 := by omega
    refine ⟨by simp [layout, hi, h2], ?_⟩
    rw [List.length_take, List.length_drop]
    have hq : i ≤ input.length / args.overflow_bytesize :=
      le_trans h2 (Nat.min_le_left _ _)
    have hle : (input.length / args.overflow_bytesize - i + 1) * args.overflow_bytesize
        ≤ input.length / args.overflow_bytesize * args.overflow_bytesize :=
      Nat.mul_le_mul_right _ (by omega)
    rw [Nat.add_mul, Nat.one_mul] at hle
    omega
  · intro j hj
    have hj0 : j ≠ 0 := Nat.pos_iff_ne_zero.mp (lt_of_le_of_lt (Nat.zero_le _) hj)
    have hj1 : ¬ (j ≤ min (input.length / args.overflow_bytesize) args.backup_buckets) :=
      Nat.not_le.mpr hj
    simp [layout, hj0, hj1]

/-- Witness of C1: 2500 bytes, threshold 1000, two backups, reads of 300 bytes. -/
theorem final_layout_witness :
    (main ⟨false, 2, 1000, false⟩ (calm fun _ => 300) emptyDisk (List.range 2500)).disk 0
        = some (Node.regular ((List.range 2500).drop 2000)) ∧
    (main ⟨false, 2, 1000, false⟩ (calm fun _ => 300) emptyDisk (List.range 2500)).disk 1
        = some (Node.regular (((List.range 2500).drop 1000).take 1000)) ∧
    (main ⟨false, 2, 1000, false⟩ (calm fun _ => 300) emptyDisk (List.range 2500)).disk 2
        = some (Node.regular (((List.range 2500).drop 0).take 1000)) ∧
    (main ⟨false, 2, 1000, false⟩ (calm fun _ => 300) emptyDisk (List.range 2500)).disk 3
        = none := by
  have h0 : 0 < (⟨false, 2, 1000, false⟩ : arguments).overflow_bytesize := by decide
  have hT : (⟨false, 2, 1000, false⟩ : arguments).overflow_bytesize < SIZE_MOD := by
    norm_num [SIZE_MOD]
  have h := final_layout ⟨false, 2, 1000, false⟩ (calm fun _ => 300) (List.range 2500)
    (reliable_calm _) h0 hT
  have hlen : (List.range 2500).length = 2500 := List.length_range 2500
  refine ⟨h.2.2.1.trans ?_, (h.2.2.2.2.1 1 (le_refl 1) ?_).1.trans ?_,
    (h.2.2.2.2.1 2 (by decide) ?_).1.trans ?_, h.2.2.2.2.2 3 ?_⟩
  · rw [hlen]; rfl
  · rw [hlen]; decide
  · rw [hlen]; rfl
  · rw [hlen]; decide
  · rw [hlen]; rfl
  · rw [hlen]; decide

/-- C6. Unbounded copy is faithful: with threshold `0`, `new_bucket` false, no
file at `dest_filename` and no I/O failure, however the reads split the input
the run ends with `dest_filename` holding exactly the input; the backup slots
are as the rotation of the first cycle left them (the copy adds none), so when
no backup existed at the start none exists at the end. -/
theorem unbounded_copy_faithful (args : arguments) (w : World) (disk : Disk)
    (input : List Byte) (hw : w.reliable) (h0 : args.overflow_bytesize = 0)
    (hnew : args.new_bucket = false) (hd : disk 0 = none) :
    (main args w disk input).busy = false ∧
    (main args w disk input).input = [] ∧
    (main args w disk input).disk 0 = some (Node.regular input) ∧
    (∀ i, 1 ≤ i → (main args w disk input).disk i
      = (_backup_bucket args w (initial w disk input)).1.disk i) ∧
    ((∀ i, 1 ≤ i → disk i = none) → ∀ i, 1 ≤ i → (main args w disk input).disk i = none) := by
  have hrot : (_backup_bucket args w (initial w disk input)).1.disk
      = rotated args.backup_buckets disk :=
    (backup_loop_spec w args.backup_buckets (initial w disk input)).2.2.2.2.2
      (backup_loop_ok w (fun t => (hw t).1) _ _)
  rw [hrot]
  have hfresh : reuse_condition args disk = false := by
    simp [reuse_condition, hd, is_regular]
  have hb0 := initial_busy w hw disk input
  obtain ⟨n, n1, n2, c1, c2, c3⟩ := cycle_unbounded args w hw h0 (initial w disk input) hb0
  have hdisk : (initial w disk input).disk = disk := rfl
  have hinput : (initial w disk input).input = input := rfl
  rw [hdisk, hfresh, hinput] at c1
  rw [hinput] at c2 n1 n2
  simp only [Bool.false_eq_true, if_false] at c1
  have hrot0 : rotated args.backup_buckets disk 0 = none := by
    simp [rotated, hd, is_regular]
  have hfinal : (main args w disk input).disk
        = sys_write (sys_open_trunc (rotated args.backup_buckets disk)) input ∧
      (main args w disk input).input = [] ∧ (main args w disk input).busy = false := by
    unfold main
    simp only [main_loop, hb0, if_true]
    by_cases hn : n = 0
    · have hnil : input = [] := by
        by_contra hne
        have := n2 hne
        omega
      have hb : (cycle args w (initial w disk input)).busy = false := by rw [c3]; simp [hn]
      rw [main_loop_done args w _ _ hb, c1, c2, hb, hnil]
      simp
    · have hb : (cycle args w (initial w disk input)).busy = true := by
        rw [c3]; simp; omega
      have hreg : is_regular ((cycle args w (initial w disk input)).disk 0) = true := by
        rw [c1]
        apply is_regular_sys_write
        simp [sys_open_trunc, hrot0, is_regular]
      obtain ⟨i1, i2, i3⟩ := main_loop_unbounded args w hw h0 hnew input.length
        (cycle args w (initial w disk input)) hb hreg
        (by rw [c2, List.length_drop]; omega)
      rw [i1, i2, i3, c1, c2, sys_write_write, List.take_append_drop]
      exact ⟨rfl, rfl, rfl⟩
  obtain ⟨f1, f2, f3⟩ := hfinal
  have hback : ∀ i, 1 ≤ i →
      (main args w disk input).disk i = rotated args.backup_buckets disk i := by
    intro i hi
    have hi0 : i ≠ 0 := by omega
    rw [f1]
    simp [sys_write, sys_open_trunc, hi0]
  refine ⟨f3, f2, ?_, hback, ?_⟩
  · rw [f1]
    simp [sys_write, sys_open_trunc, hrot0]
  · intro hnone i hi
    rw [hback i hi]
    have hi0 : i ≠ 0 := by omega
    have h1 : disk (i - 1) = none := by
      by_cases hi1 : i = 1
      · subst hi1; exact hd
      · exact hnone (i - 1) (by omega)
    simp [rotated, hi0, h1, hnone i hi, is_regular]

/-- Witness of C6: the input "hello world", read three bytes at a time. -/
theorem unbounded_copy_faithful_witness :
    (main ⟨false, 5, 0, false⟩ (calm fun _ => 3) emptyDisk
        [104, 101, 108, 108, 111, 32, 119, 111, 114, 108, 100]).disk 0
      = some (Node.regular [104, 101, 108, 108, 111, 32, 119, 111, 114, 108, 100]) ∧
    (main ⟨false, 5, 0, false⟩ (calm fun _ => 3) emptyDisk
        [104, 101, 108, 108, 111, 32, 119, 111, 114, 108, 100]).disk 1 = none :=
  ⟨(unbounded_copy_faithful ⟨false, 5, 0, false⟩ (calm fun _ => 3) emptyDisk
      [104, 101, 108, 108, 111, 32, 119, 111, 114, 108, 100]
      (reliable_calm _) rfl rfl rfl).2.2.1,
   (unbounded_copy_faithful ⟨false, 5, 0, false⟩ (calm fun _ => 3) emptyDisk
      [104, 101, 108, 108, 111, 32, 119, 111, 114, 108, 100]
      (reliable_calm _) rfl rfl rfl).2.2.2.2 (fun _ _ => rfl) 1 (le_refl 1)⟩

/-- C3 (failing input). With threshold `0`, `new_bucket` set, one backup and
the one-byte input `[7]`, the copy loop signals overflow after its first
write, the engine rotates, and the run ends with an empty `dest_filename` and
the input in `dest_filename.1`. -/
theorem unbounded_mode_rotates :
    (main ⟨true, 1, 0, false⟩ (calm fun _ => 1) emptyDisk [7]).disk 0
      = some (Node.regular []) ∧
    (main ⟨true, 1, 0, false⟩ (calm fun _ => 1) emptyDisk [7]).disk 1
      = some (Node.regular [7]) ∧
    (main ⟨true, 1, 0, false⟩ (calm fun _ => 1) emptyDisk [7]).trace
      = [Event.malloc true, Event.open_create true,
         Event.read 0 32768 1 (some 1),
         Event.write 1 WriteOutcome.full (some (Node.regular [7])),
         Event.advance 1 true,
         Event.close true 1 (some (Node.regular [7])),
         Event.rename 0 1 true, Event.open_create true,
         Event.read 0 32768 0 (some 0),
         Event.close false 0 (some (Node.regular []))] := by
  refine ⟨?_, ?_, ?_⟩ <;> decide

/-- C10. The read request is never zero and never wraps: the transfer buffer
holds between 1 and 32768 bytes (at most the threshold `T` when `T > 0`), and
every `read` of every run, in any world, is made with a request between 1 and
the buffer size; when `T > 0` the counter is below `T` at that point, the
`size_t` subtraction `T - bucket_size` equals the mathematical one and the
request is `min (T - bucket_size) buffer_size`; and a read that returns zero
found no input pending.  The run is complete: the outer loop has been left. -/
theorem read_request_bounds (args : arguments) (w : World) (disk : Disk) (input : List Byte)
    (hT : args.overflow_bytesize < SIZE_MOD) :
    1 ≤ buffer_size args ∧ buffer_size args ≤ 32768 ∧
    (0 < args.overflow_bytesize → buffer_size args ≤ args.overflow_bytesize) ∧
    (main args w disk input).busy = false ∧
    ∀ bucket_size request pending result,
      Event.read bucket_size request pending result ∈ (main args w disk input).trace →
      request = max_read_size args bucket_size ∧
      1 ≤ request ∧ request ≤ buffer_size args ∧
      (result = some 0 → pending = 0) ∧
      (0 < args.overflow_bytesize →
        bucket_size < args.overflow_bytesize ∧
        size_sub args.overflow_bytesize bucket_size = args.overflow_bytesize - bucket_size ∧
        request = min (args.overflow_bytesize - bucket_size) (buffer_size args)) := by
  refine ⟨buffer_size_pos args, buffer_size_le args, buffer_size_le_threshold args,
    main_terminates args w disk input, ?_⟩
  intro b req pending res hmem
  exact main_trace_good args w disk input hT _ hmem

/-- Witness of C10: the last read of a run with threshold 10 over 25 bytes
served 3 at a time is made at counter 5 and returns zero with nothing pending. -/
theorem read_request_bounds_witness :
    Event.read 5 5 0 (some 0)
        ∈ (main ⟨false, 2, 10, false⟩ (calm fun _ => 3) emptyDisk (List.range 25)).trace ∧
      5 = max_read_size ⟨false, 2, 10, false⟩ 5 ∧ 1 ≤ 5 ∧
      5 ≤ buffer_size ⟨false, 2, 10, false⟩ ∧ ((some 0 : Option Nat) = some 0 → 0 = 0) ∧
      (0 < (⟨false, 2, 10, false⟩ : arguments).overflow_bytesize →
        5 < (⟨false, 2, 10, false⟩ : arguments).overflow_bytesize ∧
        size_sub (⟨false, 2, 10, false⟩ : arguments).overflow_bytesize 5
          = (⟨false, 2, 10, false⟩ : arguments).overflow_bytesize - 5 ∧
        5 = min ((⟨false, 2, 10, false⟩ : arguments).overflow_bytesize - 5)
          (buffer_size ⟨false, 2, 10, false⟩)) :=
  ⟨by decide,
   (read_request_bounds ⟨false, 2, 10, false⟩ (calm fun _ => 3) emptyDisk (List.range 25)
      (by norm_num [SIZE_MOD])).2.2.2.2 5 5 0 (some 0) (by decide)⟩

/-- C8. DONE is terminal: every run ends (the outer loop is left) with an
event that ends it in its event list, and whenever an end of input (a `read`
returning zero) or a fatal failure (`read` returning `-1`, a failed or short
bucket `write`, a failed `open`, `lseek`, `rename` or `malloc`) occurs, no
such event came before it and nothing follows it except the `close` of the
bucket that was open: no `rename`, no `open`, no `read`, no `write`, no
counter update. -/
theorem done_is_terminal (args : arguments) (w : World) (disk : Disk) (input : List Byte) :
    (main args w disk input).busy = false ∧
    (∃ before e after, (main args w disk input).trace = before ++ e :: after ∧
      fatal e = true) ∧
    ∀ before e after, (main args w disk input).trace = before ++ e :: after →
      fatal e = true →
      (∀ x ∈ before, fatal x = false) ∧
      (after = [] ∨ ∃ overflow bucket_size bucket,
        after = [Event.close overflow bucket_size bucket]) := by
  have hb := main_terminates args w disk input
  have hs := (main_settled args w disk input).2 hb
  refine ⟨hb, ?_, ?_⟩
  · rcases hs with ⟨P, e0, h1, h2, -⟩ | ⟨P, e0, c, h1, h2, -, -⟩
    · exact ⟨P, e0, [], h1, h2⟩
    · exact ⟨P, e0, [c], h1, h2⟩
  · intro before e after htr he
    rcases hs with ⟨P, e0, h1, h2, h3⟩ | ⟨P, e0, c, h1, h2, hc, h3⟩
    · rw [h1] at htr
      obtain ⟨mid, m1, m2⟩ := split_clean P [e0] h3 before e after htr he
      cases mid with
      | nil =>
        simp only [List.nil_append, List.cons.injEq] at m2
        rw [m1]
        exact ⟨by simpa using h3, Or.inl m2.2.symm⟩
      | cons a mid =>
        simp only [List.cons_append, List.cons.injEq] at m2
        have := congrArg List.length m2.2
        simp at this
        omega
    · rw [h1] at htr
      obtain ⟨mid, m1, m2⟩ := split_clean P [e0, c] h3 before e after htr he
      cases mid with
      | nil =>
        simp only [List.nil_append, List.cons.injEq] at m2
        rw [m1]
        refine ⟨by simpa using h3, Or.inr ?_⟩
        cases c with
        | close ov b node => exact ⟨ov, b, node, m2.2.symm⟩
        | _ => simp [is_close] at hc
      | cons a mid =>
        simp only [List.cons_append, List.cons.injEq] at m2
        cases mid with
        | nil =>
          simp only [List.nil_append, List.cons.injEq] at m2
          have hce : c = e := m2.2.1
          rw [← hce] at he
          cases c <;> simp [is_close, fatal] at hc he
        | cons a2 mid =>
          simp only [List.cons_append, List.cons.injEq] at m2
          have := congrArg List.length m2.2.2
          simp at this
          omega

/-- C9 (as stated, refuted). With `dest_filename` and `dest_filename.1` two
links to one regular file and `backup_buckets = 1`, the `rename` succeeds
without doing anything: `_backup_bucket` returns `TRUE` and `dest_filename`,
a regular file before the call, is still there afterwards. -/
theorem backup_bucket_keeps_linked_bucket :
    (Posix._backup_bucket ⟨false, 1, 3, false⟩ (Posix.calm fun _ => 1)
        (Posix.initial (Posix.calm fun _ => 1)
          { dir := fun k => if k ≤ 1 then some (Posix.Entry.file (Posix.Ino.old 0)) else none,
            data := fun _ => [5] } Posix.Sink.outside [])).2 = true ∧
    ¬ (1 ≤ (⟨false, 1, 3, false⟩ : arguments).backup_buckets →
      is_regular ((Posix.initial (Posix.calm fun _ => 1)
          { dir := fun k => if k ≤ 1 then some (Posix.Entry.file (Posix.Ino.old 0)) else none,
            data := fun _ => [5] } Posix.Sink.outside []).fs.view 0) = true →
      (Posix._backup_bucket ⟨false, 1, 3, false⟩ (Posix.calm fun _ => 1)
        (Posix.initial (Posix.calm fun _ => 1)
          { dir := fun k => if k ≤ 1 then some (Posix.Entry.file (Posix.Ino.old 0)) else none,
            data := fun _ => [5] } Posix.Sink.outside [])).1.fs.view 0 = none) := by
  refine ⟨by decide, ?_⟩
  intro h
  have h2 := h (by decide) (by decide)
  revert h2
  decide

/-- C9 (amended). Backup rotation postcondition over names and inodes: after a
call of `_backup_bucket` that returns `TRUE` (no rename failed), made when
`dest_filename.(N-1)` and `dest_filename.N` (`dest_filename` and
`dest_filename.1` for `N = 1`) are not links to one and the same regular file,
every slot `i` in `1..N` whose predecessor `i - 1` held a regular file shows
that file's content; a slot whose predecessor held no regular file is vacated
when `i < N` and it held a regular file itself, and is untouched otherwise (in
particular slot `N`); slot `0` is gone when `N ≥ 1` and it was a regular file,
and untouched when it was not; slots above `N` are unchanged; no file's content
changes; and for `N = 0` the call changes nothing at all. -/
theorem posix_backup_bucket_postcondition (args : arguments) (h : Posix.Host) (s : Posix.Run)
    (hret : (Posix._backup_bucket args h s).2 = true)
    (hlink : 1 ≤ args.backup_buckets →
      ¬ Posix.linked s.fs (args.backup_buckets - 1) args.backup_buckets) :
    (∀ i, 1 ≤ i → i ≤ args.backup_buckets → is_regular (s.fs.view (i - 1)) = true →
      (Posix._backup_bucket args h s).1.fs.view i = s.fs.view (i - 1)) ∧
    (∀ i, 1 ≤ i → i < args.backup_buckets → is_regular (s.fs.view (i - 1)) = false →
      is_regular (s.fs.view i) = true → (Posix._backup_bucket args h s).1.fs.view i = none) ∧
    (∀ i, 1 ≤ i → i ≤ args.backup_buckets → is_regular (s.fs.view (i - 1)) = false →
      is_regular (s.fs.view i) = false →
      (Posix._backup_bucket args h s).1.fs.view i = s.fs.view i) ∧
    (1 ≤ args.backup_buckets → is_regular (s.fs.view (args.backup_buckets - 1)) = false →
      (Posix._backup_bucket args h s).1.fs.view args.backup_buckets
        = s.fs.view args.backup_buckets) ∧
    (1 ≤ args.backup_buckets → is_regular (s.fs.view 0) = true →
      (Posix._backup_bucket args h s).1.fs.view 0 = none) ∧
    (is_regular (s.fs.view 0) = false →
      (Posix._backup_bucket args h s).1.fs.view 0 = s.fs.view 0) ∧
    (∀ j, args.backup_buckets < j →
      (Posix._backup_bucket args h s).1.fs.view j = s.fs.view j) ∧
    (Posix._backup_bucket args h s).1.fs.data = s.fs.data ∧
    (args.backup_buckets = 0 → Posix._backup_bucket args h s = (s, true)) := by
  have hspec := posix_backup_loop_spec h args.backup_buckets s
  have hd := hspec.2.2.2.2.2.2.2.2 hret hlink
  have hdata := hspec.2.2.2.2.2.2.2.1
  unfold Posix._backup_bucket at hret ⊢
  rw [hd]
  refine ⟨?_, ?_, ?_, ?_, ?_, ?_, ?_, hdata, ?_⟩
  · intro i h1 h2 hreg
    simp [rotated, h1, h2, hreg]
  · intro i h1 h2 hp hreg
    have h3 : i ≤ args.backup_buckets := by omega
    simp [rotated, h1, h2, h3, hp, hreg]
  · intro i h1 h2 hp hreg
    simp [rotated, h1, h2, hp, hreg]
  · intro h1 hp
    simp [rotated, h1, hp]
  · intro h1 hreg
    simp [rotated, h1, hreg]
  · intro hreg
    simp [rotated, hreg]
  · intro j hj
    have h1 : ¬ (j ≤ args.backup_buckets) := by omega
    have h2 : j ≠ 0 := by omega
    simp [rotated, h1, h2]
  · intro hN
    rw [hN]
    rfl

/-- Witness of C9 (amended): a rotation of depth 2 where `dest_filename` and
`dest_filename.1` are links to one file and `dest_filename.2` is absent. -/
theorem posix_backup_bucket_postcondition_witness :
    (Posix._backup_bucket ⟨false, 2, 10, false⟩ (Posix.calm fun _ => 1)
        (Posix.initial (Posix.calm fun _ => 1)
          { dir := fun k => if k ≤ 1 then some (Posix.Entry.file (Posix.Ino.old 0)) else none,
            data := fun _ => [5] } Posix.Sink.outside [])).1.fs.view 0 = none ∧
    (Posix._backup_bucket ⟨false, 2, 10, false⟩ (Posix.calm fun _ => 1)
        (Posix.initial (Posix.calm fun _ => 1)
          { dir := fun k => if k ≤ 1 then some (Posix.Entry.file (Posix.Ino.old 0)) else none,
            data := fun _ => [5] } Posix.Sink.outside [])).1.fs.view 2
      = (Posix.initial (Posix.calm fun _ => 1)
          { dir := fun k => if k ≤ 1 then some (Posix.Entry.file (Posix.Ino.old 0)) else none,
            data := fun _ => [5] } Posix.Sink.outside []).fs.view (2 - 1) :=
  ⟨(posix_backup_bucket_postcondition ⟨false, 2, 10, false⟩ (Posix.calm fun _ => 1)
      (Posix.initial (Posix.calm fun _ => 1)
        { dir := fun k => if k ≤ 1 then some (Posix.Entry.file (Posix.Ino.old 0)) else none,
          data := fun _ => [5] } Posix.Sink.outside []) (by decide)
      (fun _ hl => by
        obtain ⟨ino, -, hb⟩ := hl
        simp [Posix.initial] at hb)).2.2.2.2.1 (by decide) (by decide),
   (posix_backup_bucket_postcondition ⟨false, 2, 10, false⟩ (Posix.calm fun _ => 1)
      (Posix.initial (Posix.calm fun _ => 1)
        { dir := fun k => if k ≤ 1 then some (Posix.Entry.file (Posix.Ino.old 0)) else none,
          data := fun _ => [5] } Posix.Sink.outside []) (by decide)
      (fun _ hl => by
        obtain ⟨ino, -, hb⟩ := hl
        simp [Posix.initial] at hb)).1 2 (by decide) (by decide) (by decide)⟩

end Bucket
